/-
  Verification of the buk-calendar-sync event extraction and normalization
  pipeline (scripts/scraper.js, final variant).

  The scraper's pipeline is shallowly embedded here:
  * JavaScript `Date` values are modelled as `Option Int`: `some d` is a valid
    date holding the civil day number `d` (days since 1970-01-01 in the
    proleptic Gregorian calendar, local-midnight instants), `none` is an
    Invalid Date (NaN timestamp).  All dates the pipeline builds are civil
    midnights, so day numbers capture the arithmetic (`addDays`, comparisons,
    and the millisecond difference divided by 86_400_000 in the deduplicator).
  * Strings are Lean `String`s; DOM/JSON values that may be `null`/`undefined`
    are `Option String`, and JavaScript truthiness of a string value is
    "present and non-empty".
-/
import Mathlib

namespace Buk

/-! ## Civil-date arithmetic and the JavaScript `Date` constructor -/

/-- Day number of the civil date y-m-d (1 ≤ m ≤ 12), with day 0 = 1970-01-01,
in the proleptic Gregorian calendar (Howard Hinnant's `days_from_civil`). -/
def daysFromCivil (y m d : Int) : Int :=
  let yAdj : Int := if m ≤ 2 then y - 1 else y
  let era : Int := yAdj.fdiv 400
  let yoe : Int := yAdj - era * 400
  let mp : Int := (m + 9).emod 12
  let doy : Int := (153 * mp + 2).fdiv 5 + (d - 1)
  let doe : Int := yoe * 365 + yoe.fdiv 4 - yoe.fdiv 100 + doy
  era * 146097 + doe - 719468

/-- The ECMAScript `new Date(year, monthIndex, day)` constructor on finite
arguments: a year in 0..99 is mapped to 1900+year, the month index is
normalized into the year (out-of-range months roll over into adjacent years),
and the day-of-month rolls over into adjacent months.  Returns the civil day
number of the resulting local midnight. -/
def jsMakeDateZ (y monthIdx day : Int) : Int :=
  let yr : Int := if 0 ≤ y ∧ y ≤ 99 then 1900 + y else y
  let ym : Int := yr * 12 + monthIdx
  let yy : Int := ym.fdiv 12
  let mm : Int := ym.emod 12
  daysFromCivil yy (mm + 1) 1 + (day - 1)

/-- `new Date(year, monthIndex, day)` lifted to possibly-NaN arguments: any
NaN argument yields an Invalid Date. -/
def jsMakeDate : Option Int → Option Int → Option Int → Option Int
  | some y, some m, some d => some (jsMakeDateZ y m d)
  | _, _, _ => none

/-- `addDays(date, days)` from scraper.js: `setDate(getDate() + days)` adds
whole civil days; an Invalid Date stays invalid. -/
def addDays (d : Option Int) (n : Int) : Option Int := d.map (· + n)

/-! ## Number conversion and `parseDate` -/

def isDigitChar (c : Char) : Bool := '0' ≤ c && c ≤ '9'

def digitsToInt (l : List Char) : Int :=
  l.foldl (fun a c => a * 10 + ((c.toNat : Int) - 48)) 0

/-- The whitespace class shared by the regex escape for whitespace and by
`String.prototype.trim`, on the ASCII range occurring in the portal's titles
(in ECMAScript both use the same character set, which is what the cleaning
pipeline's behavior depends on). -/
def jsWhitespace (c : Char) : Bool :=
  c = ' ' || c = '\t' || c = '\n' || c = '\r' || c = '\x0b' || c = '\x0c'

/-- ECMAScript `Number(string)`, modelled on the fragments that occur between
the `/` and `-` separators of the portal's date strings: optional whitespace
around an unsigned decimal literal (whose value the `Date` constructor then
truncates to an integer); the empty string converts to 0.  Other numeric
forms (signs, exponents, hex) do not occur in date strings and are mapped to
NaN (`none`), as is any part containing a non-digit. -/
def jsNumList (l : List Char) : Option Int :=
  let t := ((l.dropWhile jsWhitespace).reverse.dropWhile jsWhitespace).reverse
  if t = [] then some 0
  else
    let intPart := t.takeWhile isDigitChar
    let rest := t.dropWhile isDigitChar
    if intPart = [] then none
    else
      match rest with
      | [] => some (digitsToInt intPart)
      | '.' :: frac => if frac.all isDigitChar then some (digitsToInt intPart) else none
      | _ => none

/-- `dateStr.split` on the slash-or-hyphen character class: split a character
list at every `/` or `-`. -/
def splitParts : List Char → List (List Char)
  | [] => [[]]
  | c :: rest =>
    if c = '/' ∨ c = '-' then [] :: splitParts rest
    else
      match splitParts rest with
      | [] => [[c]]
      | p :: ps => (c :: p) :: ps

/-- The body of scraper.js `parseDate` after `split(...).map(Number)`:
if the first part is > 1900 and there are exactly three parts, interpret as
ISO year-month-day; otherwise destructure as day-month-year (missing parts
are `undefined`, which behaves as NaN in arithmetic), century-completing a
two-digit year by adding 2000. -/
def parseDateParts (parts : List (Option Int)) : Option Int :=
  let p0 := parts.getD 0 none
  if (match p0 with | some v => decide (1900 < v) | none => false) = true
      ∧ parts.length = 3 then
    jsMakeDate p0 ((parts.getD 1 none).map (· - 1)) (parts.getD 2 none)
  else
    let day := parts.getD 0 none
    let month := parts.getD 1 none
    let year := parts.getD 2 none
    let fullYear := year.map (fun y => if y < 100 then 2000 + y else y)
    jsMakeDate fullYear (month.map (· - 1)) day

/-- scraper.js `parseDate(dateStr)`: a falsy (empty) string yields an Invalid
Date, otherwise split on `/` and `-`, convert the parts with `Number`, and
build the date. -/
def parseDate (s : String) : Option Int :=
  if s = "" then none
  else parseDateParts ((splitParts s.data).map jsNumList)

/-- Number of days in month `m` of year `y` (Gregorian). -/
def daysInMonth (y m : Int) : Int :=
  if m = 2 then
    (if (y.emod 4 = 0 ∧ y.emod 100 ≠ 0) ∨ y.emod 400 = 0 then 29 else 28)
  else if m = 4 ∨ m = 6 ∨ m = 9 ∨ m = 11 then 30 else 31

/-- The ECMAScript `new Date(string)` parser, modelled on the calendar-date
ISO form `YYYY-MM-DD` (the shape carried by the portal's API payloads and by
FullCalendar's date strings): out-of-range components are rejected, and any
other input is mapped to an Invalid Date. -/
def parseISODate (s : String) : Option Int :=
  match s.data with
  | [a, b, c, d, '-', e, f, '-', g, h] =>
    if [a, b, c, d, e, f, g, h].all isDigitChar then
      let y := digitsToInt [a, b, c, d]
      let m := digitsToInt [e, f]
      let dd := digitsToInt [g, h]
      if 1 ≤ m ∧ m ≤ 12 ∧ 1 ≤ dd ∧ dd ≤ daysInMonth y m then
        some (daysFromCivil y m dd)
      else none
    else none
  | _ => none

/-! ## `cleanTitle` -/

/-- Right-trim: remove trailing whitespace characters. -/
def trimRightGo : List Char → List Char
  | [] => []
  | c :: rest =>
    match trimRightGo rest with
    | [] => if jsWhitespace c then [] else [c]
    | r => c :: r

/-- `String.prototype.trim`: remove leading and trailing whitespace. -/
def jsTrimList (l : List Char) : List Char := trimRightGo (l.dropWhile jsWhitespace)

/-- `replace(/\s+/g, ' ')`: collapse every maximal whitespace run to a single
space.  The flag records whether we are inside a run already emitted. -/
def collapseWsGo : Bool → List Char → List Char
  | _, [] => []
  | inRun, c :: rest =>
    if jsWhitespace c then
      if inRun then collapseWsGo true rest else ' ' :: collapseWsGo true rest
    else c :: collapseWsGo false rest

def collapseWs (l : List Char) : List Char := collapseWsGo false l

/-- `replace(/^\d{1,2}(?=\D)/, '')`: remove a leading run of one or two
digits when the following character exists and is a non-digit (greedy with
backtracking, as the regex engine does). -/
def stripLeadingDigits : List Char → List Char
  | a :: b :: c :: rest =>
    if isDigitChar a ∧ isDigitChar b ∧ ¬ (isDigitChar c = true) then c :: rest
    else if isDigitChar a ∧ ¬ (isDigitChar b = true) then b :: c :: rest
    else a :: b :: c :: rest
  | [a, b] => if isDigitChar a ∧ ¬ (isDigitChar b = true) then [b] else [a, b]
  | l => l

def cleanTitleList (l : List Char) : List Char :=
  if l = [] then []
  else jsTrimList (collapseWs (jsTrimList (stripLeadingDigits l)))

/-- scraper.js `cleanTitle`: a falsy title maps to `''`; otherwise strip a
leading one-or-two-digit run followed by a non-digit, trim, collapse
whitespace runs to single spaces, and trim again. -/
def cleanTitle (s : String) : String := ⟨cleanTitleList s.data⟩

/-- `cleanTitle` as called on a possibly-undefined value
(`if (!title) return ''`). -/
def cleanTitleJs : Option String → String
  | none => ""
  | some s => cleanTitle s

example : daysFromCivil 1970 1 1 = 0 := by decide
example : daysFromCivil 1970 1 2 = 1 := by decide
example : daysFromCivil 1969 12 31 = -1 := by decide
example : daysFromCivil 2024 2 5 + 1 = daysFromCivil 2024 2 6 := by decide
example : jsMakeDateZ 2024 14 3 = daysFromCivil 2025 3 3 := by decide
example : jsMakeDateZ 2000 (-1) 0 = daysFromCivil 1999 11 30 := by decide
example : parseDate "2024-03-15" = some (daysFromCivil 2024 3 15) := by decide
example : parseDate "15/03/24" = some (daysFromCivil 2024 3 15) := by decide
example : parseDate "03-15-2024" = some (daysFromCivil 2025 3 3) := by decide
example : parseDate "" = none := by decide
example : parseDate "abc" = none := by decide
example : parseDate "15/03" = none := by decide
example : parseISODate "2024-02-01" = some (daysFromCivil 2024 2 1) := by decide
example : parseISODate "2024-13-01" = none := by decide
example : parseISODate "2024-02-30" = none := by decide
example : cleanTitle "5Juan Perez" = "Juan Perez" := by decide
example : cleanTitle "12a" = "a" := by decide
example : cleanTitle "123 a" = "123 a" := by decide
example : cleanTitle "55" = "55" := by decide
example : cleanTitle "  a   b  " = "a b" := by decide
example : cleanTitle "1 2 a" = "2 a" := by decide
example : cleanTitle "2 a" = "a" := by decide

/-! ## Data model -/

/-- A canonical event as built by the pipeline: `startDate`/`endDate` are
JavaScript `Date`s (so possibly Invalid), `endDate` is an exclusive bound. -/
structure CanonicalEvent where
  title : String
  startDate : Option Int
  endDate : Option Int
  allDay : Bool
  description : String
deriving DecidableEq

instance : Inhabited CanonicalEvent := ⟨⟨"", none, none, true, ""⟩⟩

/-- A raw candidate as pushed by the extraction strategies: `start` and
`end` hold the raw strings (possibly `null`/`undefined`). -/
structure RawCandidate where
  title : String
  start : Option String
  «end» : Option String
  source : String
deriving DecidableEq

/-! ## Truthiness helpers for string-valued JavaScript expressions -/

/-- JavaScript truthiness of a string value: `none` for `null`/`undefined`
or the empty string, else the string itself. -/
def strTruthy : Option String → Option String
  | some s => if s = "" then none else some s
  | none => none

/-- `a || b` on string values: `a` if truthy, else `b` (whatever its value). -/
def jsOrStr (a b : Option String) : Option String :=
  match strTruthy a with
  | some s => some s
  | none => b

def isTruthyStr (a : Option String) : Bool := (strTruthy a).isSome

/-- The regex test `^\d+$`: the string is non-empty and all digits. -/
def pureNumeric (s : String) : Bool := !s.data.isEmpty && s.data.all isDigitChar

/-! ## `deduplicateEvents` -/

/-- ASCII lowering, modelling `String.prototype.toLowerCase` on the
portal's titles. -/
def charLower (c : Char) : Char :=
  if 'A' ≤ c ∧ c ≤ 'Z' then Char.ofNat (c.toNat + 32) else c

def jsToLower (s : String) : String := ⟨s.data.map charLower⟩

/-- The grouping key `event.title.toLowerCase()`. -/
def keyOf (e : CanonicalEvent) : String := jsToLower e.title

/-- The sort comparator `(a, b) => a.startDate - b.startDate` as a
should-stay-before test: an NaN difference counts as a tie (ECMAScript
treats an NaN comparator result as 0). -/
def leStart (a b : CanonicalEvent) : Bool :=
  match a.startDate, b.startDate with
  | some x, some y => decide (x ≤ y)
  | _, _ => true

/-- Stable insertion of `e` into a sorted list (generic in the order). -/
def insertLe {α : Type} (le : α → α → Bool) (e : α) : List α → List α
  | [] => [e]
  | b :: t => if le e b then e :: b :: t else b :: insertLe le e t

/-- A stable sort, modelling `Array.prototype.sort` (stable per ECMAScript;
on a consistent comparator every stable sort computes the same list). -/
def sortLe {α : Type} (le : α → α → Bool) (l : List α) : List α :=
  l.foldr (insertLe le) []

def sortByStart (l : List CanonicalEvent) : List CanonicalEvent := sortLe leStart l

/-- `(event.startDate - last.endDate) / 86_400_000 <= 1`: in day numbers the
gap is `s - en`; any NaN makes the comparison false. -/
def gapLE1 (last e : CanonicalEvent) : Bool :=
  match e.startDate, last.endDate with
  | some s, some en => decide (s - en ≤ 1)
  | _, _ => false

/-- `event.endDate > last.endDate`; false whenever either is Invalid. -/
def endLt (last e : CanonicalEvent) : Bool :=
  match e.endDate, last.endDate with
  | some a, some b => decide (b < a)
  | _, _ => false

/-- One step of the merge sweep.  The accumulator is kept reversed, so its
head is the "current merged event" (`merged[merged.length - 1]`); extending
it replaces its `endDate` by the later end. -/
def mergeStep (acc : List CanonicalEvent) (e : CanonicalEvent) : List CanonicalEvent :=
  match acc with
  | [] => [e]
  | last :: rest =>
    if gapLE1 last e then
      (if endLt last e then { last with endDate := e.endDate } else last) :: rest
    else e :: last :: rest

/-- The per-title merge sweep over a sorted group. -/
def mergeGroup (l : List CanonicalEvent) : List CanonicalEvent :=
  (l.foldl mergeStep []).reverse

/-- The keys of the grouping `Map`, in first-insertion order. -/
def groupKeys (l : List CanonicalEvent) : List String :=
  l.foldl (fun ks e => if keyOf e ∈ ks then ks else ks ++ [keyOf e]) []

/-- scraper.js `deduplicateEvents`: group by lowercased title (a `Map`
iterates keys in first-insertion order and each group keeps input order),
sort each group by start date, sweep-merge events whose gap is at most one
day, and concatenate the merged groups. -/
def deduplicateEvents (events : List CanonicalEvent) : List CanonicalEvent :=
  (groupKeys events).flatMap fun k =>
    mergeGroup (sortByStart (events.filter fun e => keyOf e = k))

example :
    deduplicateEvents
      [⟨"a", some 0, some 1, true, "d"⟩, ⟨"a", some 2, some 3, true, "d"⟩] =
      [⟨"a", some 0, some 3, true, "d"⟩] := by decide
example :
    deduplicateEvents
      [⟨"a", some 0, some 1, true, "d"⟩, ⟨"a", some 5, some 6, true, "d"⟩] =
      [⟨"a", some 0, some 1, true, "d"⟩, ⟨"a", some 5, some 6, true, "d"⟩] := by decide
example :
    deduplicateEvents
      [⟨"B", some 4, some 5, true, "d"⟩, ⟨"b", some 3, some 4, true, "d"⟩] =
      [⟨"b", some 3, some 5, true, "d"⟩] := by decide

/-! ## Strategy 1: FullCalendar widget introspection -/

/-- An event read from the calendar widget's own API.  `start` and `end`
model the expressions `event.start ? new Date(event.start) : ...`: the outer
`Option` is the truthiness of the raw value, the inner `Option Int` is the
result of parsing it with `new Date` (`none` = Invalid). -/
structure FcApiEvent where
  title : Option String
  start : Option (Option Int)
  «end» : Option (Option Int)
  allDay : Option Bool
deriving DecidableEq

/-- The map body of the FullCalendar-API branch of `extractEvents`:
`startDate = event.start ? new Date(event.start) : new Date(NaN)`;
`endDate = event.end ? new Date(event.end) : addDays(startDate, 1)` —
a present end date is used directly (FullCalendar ends are exclusive),
with no validity or ordering check. -/
def processFcEvent (e : FcApiEvent) : CanonicalEvent :=
  let startDate : Option Int := match e.start with | some p => p | none => none
  let endDate : Option Int := match e.«end» with | some p => p | none => addDays startDate 1
  { title := cleanTitleJs e.title
    startDate := startDate
    endDate := endDate
    allDay := decide (¬ e.allDay = some false)
    description := "Imported from BUK (FullCalendar API)" }

/-- The widget branch's processing chain: keep events with a truthy title,
map, then drop events whose start date is Invalid. -/
def fcProcessAll (l : List FcApiEvent) : List CanonicalEvent :=
  ((l.filter fun e => isTruthyStr e.title).map processFcEvent).filter
    fun e => e.startDate.isSome

/-! ## Strategy 2: DOM heuristics -/

/-- A `.fc-event`-like element, reduced to the values the collector reads:
each field models the corresponding `textContent?.trim()` or
`getAttribute(...)` result. -/
structure FcEventEl where
  titleText : Option String
  ownText : Option String
  dataStart : Option String
  dataDate : Option String
  dataEnd : Option String
  dayCellDate : Option String
  timeDatetime : Option String
deriving DecidableEq

/-- A multi-day event element (`.fc-event-resizable` etc.). -/
structure MultiDayEl where
  titleText : Option String
  ownText : Option String
  dayCellDate : Option String
deriving DecidableEq

/-- A day cell: its `data-date` attribute and the trimmed text of each
event-like descendant indicator. -/
structure DayCellEl where
  dataDate : Option String
  indicatorTexts : List (Option String)
deriving DecidableEq

/-- A table row: the trimmed text of each `td` cell. -/
structure TableRowEl where
  cellTexts : List (Option String)
deriving DecidableEq

/-- The `.fc-event` collector: title from the nested title element or the
element's own text; skip falsy or purely numeric titles; the start string
from `data-start`/`data-date`, else the containing day cell, else a nested
`time[datetime]`; push when the title is under 200 characters. -/
def fcEventCandidate (el : FcEventEl) : List RawCandidate :=
  match strTruthy (jsOrStr el.titleText el.ownText) with
  | none => []
  | some t =>
    if pureNumeric t then []
    else
      let s1 := jsOrStr el.dataStart el.dataDate
      let s2 := match strTruthy s1 with | some v => some v | none => el.dayCellDate
      let s3 := match strTruthy s2 with | some v => some v | none => el.timeDatetime
      if t.length < 200 then
        [{ title := t, start := s3, «end» := el.dataEnd, source := "fc-event" }]
      else []

/-- The multi-day collector: same title rule, start from the containing day
cell; push when both title and start are truthy (no length bound here). -/
def multiDayCandidate (el : MultiDayEl) : List RawCandidate :=
  match strTruthy (jsOrStr el.titleText el.ownText) with
  | none => []
  | some t =>
    if pureNumeric t then []
    else
      match strTruthy el.dayCellDate with
      | some s => [{ title := t, start := some s, «end» := none, source := "fc-multiday" }]
      | none => []

/-- The day-cell indicator collector: each indicator with a truthy,
non-numeric title of length in (2, 200) contributes one candidate dated by
the cell's `data-date`. -/
def dayCellCandidates (cell : DayCellEl) : List RawCandidate :=
  match strTruthy cell.dataDate with
  | none => []
  | some date =>
    cell.indicatorTexts.flatMap fun txt =>
      match strTruthy txt with
      | some t =>
        if !pureNumeric t && decide (2 < t.length) && decide (t.length < 200) then
          [{ title := t, start := some date, «end» := none, source := "daycell-indicator" }]
        else []
      | none => []

def isSepChar (c : Char) : Bool := c = '/' || c = '-'

/-- Remainders of `l` after consuming between `lo` and `hi` leading digit
characters (used to decide the date-token regex by backtracking search). -/
def digitsThen (lo hi : Nat) (l : List Char) : List (List Char) :=
  (List.range (hi + 1)).filterMap fun n =>
    if lo ≤ n ∧ n ≤ l.length ∧ (l.take n).all isDigitChar then some (l.drop n)
    else none

/-- Does a date token (one-or-two digits, separator, one-or-two digits,
separator, two-to-four digits) match at the head of `l`? -/
def dateTokenAt (l : List Char) : Bool :=
  (digitsThen 1 2 l).any fun r1 =>
    match r1 with
    | c :: r2 =>
      isSepChar c && ((digitsThen 1 2 r2).any fun r3 =>
        match r3 with
        | c2 :: r4 => isSepChar c2 && !(digitsThen 2 4 r4).isEmpty
        | [] => false)
    | [] => false

/-- The test `text.match` against the day-month-year date regex: a date
token occurs somewhere in the string. -/
def hasDateToken (s : String) : Bool := s.data.tails.any dateTokenAt

/-- One table cell scanned against the state (name, startDate, endDate):
a cell whose text contains a date token fills start then end; a non-date
cell of length in (3, 100) becomes the name if none is set yet. -/
def tableStep (st : Option String × Option String × Option String)
    (cell : Option String) : Option String × Option String × Option String :=
  match st with
  | (name, startD, endD) =>
    match strTruthy cell with
    | none => (name, startD, endD)
    | some text =>
      if hasDateToken text then
        if startD = none then (name, some text, endD)
        else if endD = none then (name, startD, some text)
        else (name, startD, endD)
      else if 3 < text.length ∧ text.length < 100 ∧ name = none then
        (some text, startD, endD)
      else (name, startD, endD)

/-- The table-row collector: rows with at least two cells are scanned
left to right; a row with both a name and a start date yields a candidate. -/
def tableRowCandidates (row : TableRowEl) : List RawCandidate :=
  if 2 ≤ row.cellTexts.length then
    match row.cellTexts.foldl tableStep (none, none, none) with
    | (some n, some s, e) => [{ title := n, start := some s, «end» := e, source := "table" }]
    | _ => []
  else []

/-- The page snapshot handed to `extractEvents`: the queryable widget's
event list if one is exposed (`none` models a page without one, or a widget
query that returned null), and the DOM element groups each heuristic scans. -/
structure Snapshot where
  fcApi : Option (List FcApiEvent)
  fcEventEls : List FcEventEl
  multiDayEls : List MultiDayEl
  dayCellEls : List DayCellEl
  tableRowEls : List TableRowEl
deriving DecidableEq

/-- `a <= b` on JavaScript `Date`s: false whenever either is Invalid. -/
def optLE (a b : Option Int) : Bool :=
  match a, b with
  | some x, some y => decide (x ≤ y)
  | _, _ => false

/-- `a < b` on JavaScript `Date`s: false whenever either is Invalid. -/
def optLT (a b : Option Int) : Bool :=
  match a, b with
  | some x, some y => decide (x < y)
  | _, _ => false

/-- All DOM candidates, in the order the strategies run. -/
def domRawCandidates (sn : Snapshot) : List RawCandidate :=
  sn.fcEventEls.flatMap fcEventCandidate
    ++ sn.multiDayEls.flatMap multiDayCandidate
    ++ sn.dayCellEls.flatMap dayCellCandidates
    ++ sn.tableRowEls.flatMap tableRowCandidates

/-- The map body of the DOM branch: parse the start, use a truthy explicit
end if parseable, else default to the next day; an invalid end or an end not
after the start is replaced by `startDate + 1 day`. -/
def processDomCandidate (c : RawCandidate) : CanonicalEvent :=
  let startDate := parseDate (c.start.getD "")
  let endDate0 := match strTruthy c.«end» with
    | some es => parseDate es
    | none => addDays startDate 1
  let endDate :=
    if endDate0.isNone || optLE endDate0 startDate then addDays startDate 1 else endDate0
  { title := cleanTitle c.title
    startDate := startDate
    endDate := endDate
    allDay := true
    description := "Imported from BUK (" ++ c.source ++ ")" }

/-- scraper.js `extractEvents`: try the FullCalendar widget API first and
return its deduplicated events if any survive processing; otherwise run the
DOM heuristics, filter candidates with truthy start and title, process, drop
invalid starts, and deduplicate. -/
def extractEvents (sn : Snapshot) : List CanonicalEvent :=
  let domPath :=
    let processed :=
      (((domRawCandidates sn).filter fun c =>
          isTruthyStr c.start && !(c.title == "")).map processDomCandidate).filter
        fun e => e.startDate.isSome
    deduplicateEvents processed
  match sn.fcApi with
  | some l =>
    if 0 < l.length then
      let processed := fcProcessAll l
      if 0 < processed.length then deduplicateEvents processed else domPath
    else domPath
  | none => domPath

/-! ## Strategy 0: intercepted API payloads -/

/-- A record of an intercepted events array, with the aliased field names
the extractor probes (absent fields are `none`). -/
structure ApiRecord where
  title : Option String := none
  name : Option String := none
  nombre : Option String := none
  employee_name : Option String := none
  empleado : Option String := none
  description : Option String := none
  descripcion : Option String := none
  start : Option String := none
  start_date : Option String := none
  fecha_inicio : Option String := none
  startDate : Option String := none
  begin : Option String := none
  inicio : Option String := none
  «end» : Option String := none
  end_date : Option String := none
  fecha_fin : Option String := none
  endDate : Option String := none
  finish : Option String := none
  fin : Option String := none
deriving DecidableEq

/-- `event.title || event.name || event.nombre || event.employee_name ||
event.empleado || event.description || event.descripcion`. -/
def apiTitleOf (r : ApiRecord) : Option String :=
  jsOrStr r.title (jsOrStr r.name (jsOrStr r.nombre (jsOrStr r.employee_name
    (jsOrStr r.empleado (jsOrStr r.description r.descripcion)))))

/-- `event.start || event.start_date || event.fecha_inicio ||
event.startDate || event.begin || event.inicio`. -/
def apiStartOf (r : ApiRecord) : Option String :=
  jsOrStr r.start (jsOrStr r.start_date (jsOrStr r.fecha_inicio
    (jsOrStr r.startDate (jsOrStr r.begin r.inicio))))

/-- `event.end || event.end_date || event.fecha_fin || event.endDate ||
event.finish || event.fin`. -/
def apiEndOf (r : ApiRecord) : Option String :=
  jsOrStr r.«end» (jsOrStr r.end_date (jsOrStr r.fecha_fin
    (jsOrStr r.endDate (jsOrStr r.finish r.fin))))

/-- The JSON shape of an intercepted response: either an array of records or
an object whose `events`, `data` or `results` field may hold the array. -/
inductive ApiPayloadData where
  | arr (items : List ApiRecord)
  | obj (events dataField results : Option (List ApiRecord))
deriving DecidableEq

/-- The shape dispatch: `Array.isArray(data)` first, else the first of
`data.events`, `data.data`, `data.results` that is an array (an array is
truthy even when empty), else no records. -/
def payloadEvents : ApiPayloadData → List ApiRecord
  | .arr items => items
  | .obj ev da re =>
    match ev with
    | some l => l
    | none =>
      match da with
      | some l => l
      | none => match re with | some l => l | none => []

/-- One intercepted response, keyed by its source URL. -/
structure InterceptedPayload where
  url : String
  data : ApiPayloadData
deriving DecidableEq

/-- Records with a truthy aliased title and start become candidates tagged
`api-intercept`; the title is cleaned at push time, the end may be falsy. -/
def apiCandidatesOf (p : InterceptedPayload) : List RawCandidate :=
  (payloadEvents p.data).flatMap fun r =>
    match strTruthy (apiTitleOf r), strTruthy (apiStartOf r) with
    | some t, some s =>
      [{ title := cleanTitle t, start := some s, «end» := apiEndOf r,
         source := "api-intercept" }]
    | _, _ => []

/-- The map body of the API branch of `extractEventsWithInterceptedData`:
`startDate = new Date(event.start)`; a falsy end defaults to the start; an
invalid end or an end before the start is clamped to the start; then one day
is added (API end dates are inclusive, ICS end dates exclusive). -/
def processApiCandidate (c : RawCandidate) : CanonicalEvent :=
  let startDate := parseISODate (c.start.getD "")
  let endDate0 := match strTruthy c.«end» with
    | some es => parseISODate es
    | none => startDate
  let endDate1 := if endDate0.isNone || optLT endDate0 startDate then startDate else endDate0
  { title := c.title
    startDate := startDate
    endDate := addDays endDate1 1
    allDay := true
    description := "Imported from BUK (" ++ c.source ++ ")" }

/-- scraper.js `extractEventsWithInterceptedData`: use intercepted API data
first; if any candidates survive processing, deduplicate and return them;
otherwise fall back to `extractEvents` on the page snapshot. -/
def extractEventsWithInterceptedData (sn : Snapshot)
    (intercepted : List InterceptedPayload) : List CanonicalEvent :=
  if 0 < intercepted.length then
    let apiEvents := intercepted.flatMap apiCandidatesOf
    if 0 < apiEvents.length then
      let processed := (apiEvents.map processApiCandidate).filter
        fun e => e.startDate.isSome
      if 0 < processed.length then deduplicateEvents processed
      else extractEvents sn
    else extractEvents sn
  else extractEvents sn

/-- The empty snapshot: no widget, empty DOM. -/
def emptySnapshot : Snapshot := ⟨none, [], [], [], []⟩

example : extractEvents emptySnapshot = [] := by decide
example : extractEventsWithInterceptedData emptySnapshot [] = [] := by decide
example : hasDateToken "01/02/2024" = true := by decide
example : hasDateToken "12345" = false := by decide
example :
    tableRowCandidates ⟨[some "12345", some "01/02/2024"]⟩ =
      [⟨"12345", some "01/02/2024", none, "table"⟩] := by decide
example :
    processApiCandidate ⟨"X", some "2024-02-01", some "2024-02-05", "api-intercept"⟩ =
      ⟨"X", some (daysFromCivil 2024 2 1), some (daysFromCivil 2024 2 6), true,
        "Imported from BUK (api-intercept)"⟩ := by decide

/-! ## A heap-level model of `deduplicateEvents`

To reason about object mutation (`last.endDate = event.endDate` mutates an
object, and `{ ...event }` copies one), the same function is also modelled
over an explicit object heap: events are heap cells addressed by index, the
grouping phase allocates a spread-copy of every input event, and the sweep
mutates only those copies. -/

structure JsHeap where
  objs : List CanonicalEvent
deriving DecidableEq

def heapGet (h : JsHeap) (i : Nat) : CanonicalEvent := h.objs.getD i default

def heapAlloc (h : JsHeap) (e : CanonicalEvent) : JsHeap × Nat :=
  (⟨h.objs ++ [e]⟩, h.objs.length)

/-- The single mutation the sweep performs: `last.endDate = event.endDate`. -/
def heapSetEnd (h : JsHeap) (i : Nat) (d : Option Int) : JsHeap :=
  ⟨h.objs.set i { h.objs.getD i default with endDate := d }⟩

/-- Insert an object reference into the title groups, preserving `Map`
key-insertion order and per-group push order. -/
def groupInsert (groups : List (String × List Nat)) (k : String) (i : Nat) :
    List (String × List Nat) :=
  if groups.any (fun p => p.1 = k) then
    groups.map fun p => if p.1 = k then (p.1, p.2 ++ [i]) else p
  else groups ++ [(k, [i])]

/-- The grouping loop: for every input event, allocate `{ ...event }` and
push the copy's reference into its lowercased-title group. -/
def dedupGroupPhase (h : JsHeap) (input : List Nat) :
    JsHeap × List (String × List Nat) :=
  input.foldl
    (fun st i =>
      let e := heapGet st.1 i
      let an := heapAlloc st.1 e
      (an.1, groupInsert st.2 (jsToLower e.title) an.2))
    (h, [])

def leStartIdx (h : JsHeap) (a b : Nat) : Bool := leStart (heapGet h a) (heapGet h b)

/-- The sweep over one sorted group of references: the merged list is kept
reversed; extending the current merged event mutates its heap cell. -/
def sweepHeap (h : JsHeap) (sorted : List Nat) : JsHeap × List Nat :=
  sorted.foldl
    (fun st i =>
      match st.2 with
      | [] => (st.1, [i])
      | lastId :: rest =>
        let last := heapGet st.1 lastId
        let e := heapGet st.1 i
        if gapLE1 last e then
          (if endLt last e then heapSetEnd st.1 lastId e.endDate else st.1,
            lastId :: rest)
        else (st.1, i :: lastId :: rest))
    (h, [])

/-- Heap-level `deduplicateEvents`: group (allocating copies), then per group
sort by start date and sweep, concatenating the merged references. -/
def deduplicateEventsHeap (h : JsHeap) (input : List Nat) : JsHeap × List Nat :=
  let gp := dedupGroupPhase h input
  gp.2.foldl
    (fun st g =>
      let sorted := sortLe (leStartIdx st.1) g.2
      let sw := sweepHeap st.1 sorted
      (sw.1, st.2 ++ sw.2.reverse))
    (gp.1, [])

example :
    (deduplicateEventsHeap ⟨[⟨"a", some 0, some 1, true, "d"⟩,
        ⟨"a", some 2, some 3, true, "d"⟩]⟩ [0, 1]).1.objs =
      [⟨"a", some 0, some 1, true, "d"⟩, ⟨"a", some 2, some 3, true, "d"⟩,
        ⟨"a", some 0, some 3, true, "d"⟩, ⟨"a", some 2, some 3, true, "d"⟩] := by
  decide

/-! ## Shared predicates for the theorems -/

/-- Both dates valid and the exclusive end strictly after the start. -/
def spanPosB (e : CanonicalEvent) : Bool :=
  match e.startDate, e.endDate with
  | some s, some en => decide (s < en)
  | _, _ => false

/-- Both dates of an event are valid. -/
def validDatesB (e : CanonicalEvent) : Bool :=
  e.startDate.isSome && e.endDate.isSome

/-- Day `d` lies in the half-open span of `e`. -/
def coversB (e : CanonicalEvent) (d : Int) : Bool :=
  match e.startDate, e.endDate with
  | some s, some en => decide (s ≤ d) && decide (d < en)
  | _, _ => false

/-- `a` starts no later than `b` and their spans are separated by more than
one day (`b` starts strictly after the day following `a`'s exclusive end). -/
def mergedApartB (a b : CanonicalEvent) : Bool :=
  match a.startDate, a.endDate, b.startDate with
  | some sa, some ea, some sb => decide (sa ≤ sb) && decide (ea + 1 < sb)
  | _, _, _ => false

/-- A widget event's end field is either absent or parses to a valid date
strictly after its parsed start. -/
def widgetEndOkB (ev : FcApiEvent) : Bool :=
  match ev.«end» with
  | none => true
  | some p =>
    match p, (match ev.start with | some q => q | none => none) with
    | some v, some s => decide (s < v)
    | _, _ => false

lemma jsMakeDate_none_fst (b c : Option Int) : jsMakeDate none b c = none := rfl

lemma jsMakeDate_none_snd (a c : Option Int) : jsMakeDate a none c = none := by
  cases a <;> rfl

lemma jsMakeDate_none_thd (a b : Option Int) : jsMakeDate a b none = none := by
  cases a <;> cases b <;> rfl

/-! ## Claim theorems: C9, C2, C3, C4 -/

/-- Claim C9: on an empty snapshot (no intercepted payloads, no queryable
widget, empty DOM) the extractor returns the empty list and the full
pipeline (extraction, normalization, deduplication) returns the empty list.
(The embedding is by total functions, reflecting that the extractor never
throws.) -/
theorem C9_empty_pipeline :
    extractEvents emptySnapshot = [] ∧
    extractEventsWithInterceptedData emptySnapshot [] = [] := by
  decide

/-- A widget event whose provided end equals its start. -/
def widgetZeroLen : FcApiEvent := ⟨some "A", some (some 100), some (some 100), none⟩

/-- Claim C2 counterexample: a widget event whose end is present but not
after its start keeps that end unchanged (here `endDate = startDate`, not
`startDate + 1 day` as the claim requires). -/
theorem C2_counterexample :
    (processFcEvent widgetZeroLen).startDate = some 100 ∧
    (processFcEvent widgetZeroLen).endDate = some 100 ∧
    (processFcEvent widgetZeroLen).endDate ≠
      addDays (processFcEvent widgetZeroLen).startDate 1 := by
  decide

/-- Claim C2 (amended): for every widget-introspection candidate the
resolved `endDate` is the widget-provided end used directly whenever the end
field is present (truthy), with no validity or ordering check; only when the
end is absent does it default to `startDate + 1 day`. -/
theorem C2_amended_widget_end (ev : FcApiEvent) :
    (processFcEvent ev).endDate =
      (match ev.«end» with
       | some p => p
       | none =>
         addDays (match ev.start with | some p => p | none => none) 1) := by
  cases h : ev.«end» <;> simp [processFcEvent, h]

/-- The scenario candidate of claim C3. -/
def apiScenario : RawCandidate :=
  ⟨"X", some "2024-02-01", some "2024-02-05", "api-intercept"⟩

/-- Claim C3: for every api-source candidate with a resolvable start, the
normalized `endDate` is the parsed end plus one day when the end is present,
valid, and does not precede the start, and is `startDate + 1 day` otherwise;
in particular the inclusive span 2024-02-01 .. 2024-02-05 normalizes to the
exclusive span 2024-02-01 .. 2024-02-06. -/
theorem C3_api_end_resolution :
    (∀ (c : RawCandidate) (s : Int),
      parseISODate (c.start.getD "") = some s →
      (processApiCandidate c).endDate =
        (match strTruthy c.«end» with
         | some es =>
           match parseISODate es with
           | some v => if s ≤ v then some (v + 1) else some (s + 1)
           | none => some (s + 1)
         | none => some (s + 1)))
    ∧ (processApiCandidate apiScenario).startDate = some (daysFromCivil 2024 2 1)
    ∧ (processApiCandidate apiScenario).endDate = some (daysFromCivil 2024 2 6) := by
  refine ⟨?_, by decide, by decide⟩
  intro c s hs
  simp only [processApiCandidate, hs]
  cases he : strTruthy c.«end» with
  | none => simp [optLT, addDays]
  | some es =>
    cases hv : parseISODate es with
    | none => simp [hv, optLT, addDays]
    | some v =>
      by_cases hle : s ≤ v
      · have hlt : optLT (some v) (some s) = false := by
          simp [optLT]; omega
        simp [hv, hlt, hle, addDays]
      · have hlt : optLT (some v) (some s) = true := by
          simp [optLT]; omega
        simp [hv, hlt, hle, addDays]

/-- Claim C3 witness: the general end-resolution rule applied to the
concrete scenario candidate. -/
theorem C3_api_end_resolution_witness :
    (processApiCandidate apiScenario).endDate =
      (match strTruthy apiScenario.«end» with
       | some es =>
         match parseISODate es with
         | some v =>
           if daysFromCivil 2024 2 1 ≤ v then some (v + 1)
           else some (daysFromCivil 2024 2 1 + 1)
         | none => some (daysFromCivil 2024 2 1 + 1)
       | none => some (daysFromCivil 2024 2 1 + 1)) :=
  C3_api_end_resolution.1 apiScenario (daysFromCivil 2024 2 1) (by decide)

/-- Claim C4 counterexample: `parseDate "03-15-2024"` is interpreted with
day 03 and month 15, but the month rolls over instead of yielding Invalid:
the result is the valid date 2025-03-03, so the candidate is not dropped. -/
theorem C4_counterexample :
    parseDate "03-15-2024" = some (daysFromCivil 2025 3 3) ∧
    parseDate "03-15-2024" ≠ none := by
  decide

/-- Claim C4 (amended): `parseDate` yields Invalid (a droppable value, never
a crash — the embedding is total) whenever any of the first three parts is
non-numeric (`Number` gives NaN) or the input has fewer than three parts;
but an out-of-range month or day does not yield Invalid: the `Date`
constructor rolls it over, so "03-15-2024" (day 03, month 15) becomes the
valid date 2025-03-03 and the candidate is kept; parts beyond the third are
ignored rather than rejected. -/
theorem C4_amended_parse_invalid :
    (∀ parts : List (Option Int),
      (parts.getD 0 none = none ∨ parts.getD 1 none = none ∨
        parts.getD 2 none = none) →
      parseDateParts parts = none)
    ∧ parseDate "03-15-2024" = some (daysFromCivil 2025 3 3) := by
  refine ⟨?_, by decide⟩
  intro parts h
  unfold parseDateParts
  rcases h with h | h | h
  · rw [h]
    simp [jsMakeDate_none_thd]
  · by_cases hc :
      (match parts.getD 0 none with
        | some v => decide (1900 < v)
        | none => false) = true ∧ parts.length = 3
    · simp only [hc, if_pos, h]
      simp [jsMakeDate_none_snd]
    · simp only [hc, if_neg, h]
      simp [jsMakeDate_none_snd]
  · by_cases hc :
      (match parts.getD 0 none with
        | some v => decide (1900 < v)
        | none => false) = true ∧ parts.length = 3
    · simp only [hc, if_pos, h]
      simp [jsMakeDate_none_thd]
    · simp only [hc, if_neg, h]
      simp [jsMakeDate_none_fst]

/-- Claim C4 witness: the invalid-part rule applied to the two-part list
arising from "15/03" (third part missing). -/
theorem C4_amended_parse_invalid_witness :
    parseDateParts [some 15, some 3] = none :=
  C4_amended_parse_invalid.1 [some 15, some 3] (by decide)

/-! ## Lemmas about the merge sweep -/

/-- Value-level "starts no later": vacuous on invalid dates. -/
def sLeP (a b : CanonicalEvent) : Prop :=
  ∀ x y, a.startDate = some x → b.startDate = some y → x ≤ y

lemma mem_insertLe {α : Type} (le : α → α → Bool) (e x : α) :
    ∀ l : List α, x ∈ insertLe le e l ↔ x = e ∨ x ∈ l := by
  intro l
  induction l with
  | nil => simp [insertLe]
  | cons b t ih =>
    by_cases h : le e b
    · simp [insertLe, h, ih]
    · simp [insertLe, h, ih]
      tauto

lemma mem_sortLe {α : Type} (le : α → α → Bool) (x : α) :
    ∀ l : List α, x ∈ sortLe le l ↔ x ∈ l := by
  intro l
  induction l with
  | nil => simp [sortLe]
  | cons b t ih =>
    have hstep : sortLe le (b :: t) = insertLe le b (sortLe le t) := rfl
    rw [hstep, mem_insertLe]
    simp [ih]

lemma validDatesB_elim {e : CanonicalEvent} (h : validDatesB e = true) :
    ∃ s en, e.startDate = some s ∧ e.endDate = some en := by
  simp only [validDatesB, Bool.and_eq_true, Option.isSome_iff_exists] at h
  obtain ⟨⟨s, hs⟩, ⟨en, hen⟩⟩ := h
  exact ⟨s, en, hs, hen⟩

lemma pairwise_insert_sLe {e : CanonicalEvent} {l : List CanonicalEvent}
    (hve : e.startDate.isSome) (hvl : ∀ a ∈ l, a.startDate.isSome)
    (hp : l.Pairwise sLeP) : (insertLe leStart e l).Pairwise sLeP := by
  induction l with
  | nil => simp [insertLe, sLeP]
  | cons b t ih =>
    obtain ⟨xe, hxe⟩ := Option.isSome_iff_exists.mp hve
    obtain ⟨xb, hxb⟩ := Option.isSome_iff_exists.mp (hvl b (by simp))
    rcases List.pairwise_cons.1 hp with ⟨hbt, hpt⟩
    by_cases h : leStart e b = true
    · have hle : xe ≤ xb := by
        simpa [leStart, hxe, hxb] using h
      rw [insertLe, if_pos h]
      refine List.pairwise_cons.2 ⟨?_, hp⟩
      intro x hx
      rcases List.mem_cons.mp hx with rfl | hx
      · intro u v hu hv
        rw [hxe] at hu
        rw [hxb] at hv
        cases hu; cases hv; exact hle
      · obtain ⟨xx, hxx⟩ := Option.isSome_iff_exists.mp (hvl x (by simp [hx]))
        have hbx : xb ≤ xx := hbt x hx xb xx hxb hxx
        intro u v hu hv
        rw [hxe] at hu
        rw [hxx] at hv
        cases hu; cases hv; omega
    · have hlt : xb ≤ xe := by
        simp [leStart, hxe, hxb] at h
        omega
      rw [insertLe, if_neg h]
      refine List.pairwise_cons.2 ⟨?_, ih (fun a ha => hvl a (by simp [ha])) hpt⟩
      intro x hx
      rw [mem_insertLe] at hx
      rcases hx with rfl | hx
      · intro u v hu hv
        rw [hxb] at hu
        rw [hxe] at hv
        cases hu; cases hv; exact hlt
      · exact hbt x hx

lemma pairwise_sortByStart {l : List CanonicalEvent}
    (hv : ∀ a ∈ l, a.startDate.isSome) : (sortByStart l).Pairwise sLeP := by
  induction l with
  | nil => simp [sortByStart, sortLe]
  | cons b t ih =>
    have hstep : sortByStart (b :: t) = insertLe leStart b (sortByStart t) := rfl
    rw [hstep]
    refine pairwise_insert_sLe (hv b (by simp)) ?_ (ih fun a ha => hv a (by simp [ha]))
    intro a ha
    have : a ∈ t := by
      have := (mem_sortLe leStart a t).mp ha
      exact this
    exact hv a (by simp [this])

lemma mergedApartB_iff {a b : CanonicalEvent} {sa ea sb : Int}
    (ha : a.startDate = some sa) (hea : a.endDate = some ea)
    (hb : b.startDate = some sb) :
    mergedApartB a b = true ↔ sa ≤ sb ∧ ea + 1 < sb := by
  simp [mergedApartB, ha, hea, hb]

lemma mergedApartB_start_eq {a b b' : CanonicalEvent}
    (h : b.startDate = b'.startDate) : mergedApartB a b = mergedApartB a b' := by
  unfold mergedApartB
  rw [h]

lemma sLeP_start_eq {a a' b : CanonicalEvent} (h : a.startDate = a'.startDate) :
    sLeP a b ↔ sLeP a' b := by
  simp [sLeP, h]

/-- The sweep invariant: folding `mergeStep` over a sorted, valid remainder,
starting from a reversed accumulator whose events are pairwise separated and
whose current event starts no later than anything remaining, yields a
reversed list of pairwise-separated valid events. -/
lemma sweep_apart :
    ∀ (rem acc : List CanonicalEvent),
      (∀ e ∈ rem, validDatesB e = true) →
      (∀ e ∈ acc, validDatesB e = true) →
      rem.Pairwise sLeP →
      acc.Pairwise (fun a b => mergedApartB b a = true) →
      (∀ last, acc.head? = some last → ∀ r ∈ rem, sLeP last r) →
      (rem.foldl mergeStep acc).Pairwise (fun a b => mergedApartB b a = true)
        ∧ ∀ e ∈ rem.foldl mergeStep acc, validDatesB e = true := by
  intro rem
  induction rem with
  | nil =>
    intro acc _ hva _ hpa _
    exact ⟨hpa, hva⟩
  | cons e rest ih =>
    intro acc hvr hva hsr hpa hhd
    rw [List.foldl_cons]
    have hve : validDatesB e = true := hvr e (by simp)
    obtain ⟨se, ee, hse, hee⟩ := validDatesB_elim hve
    have hvrest : ∀ r ∈ rest, validDatesB r = true := fun r hr => hvr r (by simp [hr])
    rcases List.pairwise_cons.1 hsr with ⟨hert, hsrt⟩
    cases acc with
    | nil =>
      refine ih [e] hvrest (by simpa using hve) hsrt (by simp) ?_
      intro last hl r hr
      simp only [List.head?_cons, Option.some.injEq] at hl
      subst hl
      exact hert r hr
    | cons last rs =>
      obtain ⟨sl, el, hsl, hel⟩ := validDatesB_elim (hva last (by simp))
      have hlast_le : sLeP last e := hhd last (by simp) e (by simp)
      have hsl_le_se : sl ≤ se := hlast_le sl se hsl hse
      rcases List.pairwise_cons.1 hpa with ⟨hrs_last, hpars⟩
      by_cases hgap : gapLE1 last e = true
      · -- overlap or gap ≤ 1: the current merged event absorbs `e`
        by_cases hext : endLt last e = true
        · have hstep : mergeStep (last :: rs) e =
              { last with endDate := e.endDate } :: rs := by
            simp [mergeStep, hgap, hext]
          rw [hstep]
          refine ih _ hvrest ?_ hsrt ?_ ?_
          · intro x hx
            rcases List.mem_cons.mp hx with rfl | hx
            · simp [validDatesB, hsl, hee]
            · exact hva x (by simp [hx])
          · refine List.pairwise_cons.2 ⟨?_, hpars⟩
            intro x hx
            obtain ⟨sx, ex, hsx, hex⟩ := validDatesB_elim (hva x (by simp [hx]))
            have hxl := (mergedApartB_iff hsx hex hsl).mp (hrs_last x hx)
            exact (mergedApartB_iff hsx hex
              (show ({ last with endDate := e.endDate } :
                  CanonicalEvent).startDate = some sl from hsl)).mpr hxl
          · intro l₀ hl₀ r hr
            simp only [List.head?_cons, Option.some.injEq] at hl₀
            subst hl₀
            exact fun u v hu hv => hhd last (by simp) r (by simp [hr]) u v hu hv
        · have hstep : mergeStep (last :: rs) e = last :: rs := by
            simp [mergeStep, hgap, hext]
          rw [hstep]
          refine ih _ hvrest hva hsrt hpa ?_
          intro l₀ hl₀ r hr
          simp only [List.head?_cons, Option.some.injEq] at hl₀
          subst hl₀
          exact hhd last (by simp) r (by simp [hr])
      · -- gap > 1 day: close the current merged event and start a new one
        have hstep : mergeStep (last :: rs) e = e :: last :: rs := by
          simp [mergeStep, hgap]
        rw [hstep]
        have hgap' : el + 1 < se := by
          simp [gapLE1, hse, hel] at hgap
          omega
        refine ih _ hvrest ?_ hsrt ?_ ?_
        · intro x hx
          rcases List.mem_cons.mp hx with rfl | hx
          · exact hve
          · exact hva x hx
        · refine List.pairwise_cons.2 ⟨?_, hpa⟩
          intro x hx
          rcases List.mem_cons.mp hx with rfl | hx
          · exact (mergedApartB_iff hsl hel hse).mpr ⟨hsl_le_se, hgap'⟩
          · obtain ⟨sx, ex, hsx, hex⟩ := validDatesB_elim (hva x (by simp [hx]))
            have := (mergedApartB_iff hsx hex hsl).mp (hrs_last x hx)
            exact (mergedApartB_iff hsx hex hse).mpr ⟨by omega, by omega⟩
        · intro l₀ hl₀ r hr
          simp only [List.head?_cons, Option.some.injEq] at hl₀
          subst hl₀
          exact hert r hr

lemma spanPosB_elim {e : CanonicalEvent} (h : spanPosB e = true) :
    ∃ s en, e.startDate = some s ∧ e.endDate = some en ∧ s < en := by
  unfold spanPosB at h
  cases hs : e.startDate with
  | none => rw [hs] at h; cases h
  | some s =>
    cases hen : e.endDate with
    | none => rw [hs, hen] at h; cases h
    | some en =>
      rw [hs, hen] at h
      exact ⟨s, en, rfl, rfl, by simpa using h⟩

lemma spanPosB_intro {e : CanonicalEvent} {s en : Int}
    (hs : e.startDate = some s) (hen : e.endDate = some en) (h : s < en) :
    spanPosB e = true := by
  simp [spanPosB, hs, hen, h]

lemma coversB_iff {e : CanonicalEvent} {s en d : Int}
    (hs : e.startDate = some s) (hen : e.endDate = some en) :
    coversB e d = true ↔ s ≤ d ∧ d < en := by
  simp [coversB, hs, hen]

lemma endLt_elim {last e : CanonicalEvent} {el : Int}
    (hel : last.endDate = some el) (h : endLt last e = true) :
    ∃ a, e.endDate = some a ∧ el < a := by
  unfold endLt at h
  cases hA : e.endDate with
  | none => rw [hA] at h; cases h
  | some a =>
    rw [hA, hel] at h
    exact ⟨a, rfl, by simpa using h⟩

lemma endLt_false_elim {last e : CanonicalEvent} {a b : Int}
    (hA : e.endDate = some a) (hB : last.endDate = some b)
    (h : endLt last e = false) : a ≤ b := by
  unfold endLt at h
  rw [hA, hB] at h
  simp at h
  omega

/-- Every event in the folded sweep keeps the key of the group it came from
(an extension keeps the title). -/
lemma fold_mergeStep_key (k : String) :
    ∀ (rem acc : List CanonicalEvent),
      (∀ e ∈ acc, keyOf e = k) → (∀ e ∈ rem, keyOf e = k) →
      ∀ e ∈ rem.foldl mergeStep acc, keyOf e = k := by
  intro rem
  induction rem with
  | nil =>
    intro acc ha _ x hx
    exact ha x hx
  | cons e rest ih =>
    intro acc ha hr
    rw [List.foldl_cons]
    refine ih (mergeStep acc e) ?_ (fun x hx => hr x (by simp [hx]))
    intro x hx
    cases acc with
    | nil =>
      simp [mergeStep] at hx
      subst hx
      exact hr _ (by simp)
    | cons last rs =>
      by_cases hgap : gapLE1 last e = true
      · by_cases hext : endLt last e = true
        · rw [show mergeStep (last :: rs) e =
              { last with endDate := e.endDate } :: rs by simp [mergeStep, hgap, hext]] at hx
          rcases List.mem_cons.mp hx with rfl | hx
          · exact ha last (by simp)
          · exact ha x (by simp [hx])
        · rw [show mergeStep (last :: rs) e = last :: rs by
              simp [mergeStep, hgap, hext]] at hx
          exact ha x hx
      · rw [show mergeStep (last :: rs) e = e :: last :: rs by
            simp [mergeStep, hgap]] at hx
        rcases List.mem_cons.mp hx with rfl | hx
        · exact hr x (by simp)
        · exact ha x hx

/-- The folded sweep preserves strict positivity of every span: an extension
replaces the current end by a strictly later one. -/
lemma fold_mergeStep_spanPos :
    ∀ (rem acc : List CanonicalEvent),
      (∀ e ∈ acc, spanPosB e = true) → (∀ e ∈ rem, spanPosB e = true) →
      ∀ e ∈ rem.foldl mergeStep acc, spanPosB e = true := by
  intro rem
  induction rem with
  | nil =>
    intro acc ha _ x hx
    exact ha x hx
  | cons e rest ih =>
    intro acc ha hr
    rw [List.foldl_cons]
    refine ih (mergeStep acc e) ?_ (fun x hx => hr x (by simp [hx]))
    intro x hx
    cases acc with
    | nil =>
      simp [mergeStep] at hx
      subst hx
      exact hr _ (by simp)
    | cons last rs =>
      by_cases hgap : gapLE1 last e = true
      · by_cases hext : endLt last e = true
        · rw [show mergeStep (last :: rs) e =
              { last with endDate := e.endDate } :: rs by simp [mergeStep, hgap, hext]] at hx
          rcases List.mem_cons.mp hx with rfl | hx
          · obtain ⟨sl, el, hsl, hel, hlt⟩ := spanPosB_elim (ha last (by simp))
            obtain ⟨a, hea, hba⟩ := endLt_elim hel hext
            exact spanPosB_intro hsl
              (show ({ last with endDate := e.endDate } : CanonicalEvent).endDate = some a
                from hea) (by omega)
          · exact ha x (by simp [hx])
        · rw [show mergeStep (last :: rs) e = last :: rs by
              simp [mergeStep, hgap, hext]] at hx
          exact ha x hx
      · rw [show mergeStep (last :: rs) e = e :: last :: rs by
            simp [mergeStep, hgap]] at hx
        rcases List.mem_cons.mp hx with rfl | hx
        · exact hr x (by simp)
        · exact ha x hx

/-- Coverage superset invariant of the sweep: every day covered by the
accumulator or by the remainder is covered by some folded output event. -/
lemma fold_mergeStep_covers (d : Int) :
    ∀ (rem acc : List CanonicalEvent),
      (∀ e ∈ rem, validDatesB e = true) →
      (∀ e ∈ acc, validDatesB e = true) →
      rem.Pairwise sLeP →
      (∀ last, acc.head? = some last → ∀ r ∈ rem, sLeP last r) →
      ((∃ e ∈ acc, coversB e d = true) ∨ (∃ e ∈ rem, coversB e d = true)) →
      ∃ e ∈ rem.foldl mergeStep acc, coversB e d = true := by
  intro rem
  induction rem with
  | nil =>
    intro acc _ _ _ _ hcov
    rcases hcov with h | h
    · exact h
    · simp at h
  | cons e rest ih =>
    intro acc hvr hva hsr hhd hcov
    rw [List.foldl_cons]
    have hve := hvr e (by simp)
    obtain ⟨se, ee, hse, hee⟩ := validDatesB_elim hve
    have hvrest : ∀ r ∈ rest, validDatesB r = true := fun r hr => hvr r (by simp [hr])
    rcases List.pairwise_cons.1 hsr with ⟨hert, hsrt⟩
    cases acc with
    | nil =>
      refine ih [e] hvrest (by simpa using hve) hsrt ?_ ?_
      · intro l₀ hl₀ r hr
        simp only [List.head?_cons, Option.some.injEq] at hl₀
        subst hl₀
        exact hert r hr
      · rcases hcov with h | ⟨x, hx, hc⟩
        · simp at h
        · rcases List.mem_cons.mp hx with rfl | hx
          · exact Or.inl ⟨x, by simp, hc⟩
          · exact Or.inr ⟨x, hx, hc⟩
    | cons last rs =>
      obtain ⟨sl, el, hsl, hel⟩ := validDatesB_elim (hva last (by simp))
      have hsl_le_se : sl ≤ se := hhd last (by simp) e (by simp) sl se hsl hse
      by_cases hgap : gapLE1 last e = true
      · by_cases hext : endLt last e = true
        · obtain ⟨a, hea, hba⟩ := endLt_elim hel hext
          rw [show mergeStep (last :: rs) e =
              { last with endDate := e.endDate } :: rs by simp [mergeStep, hgap, hext]]
          refine ih _ hvrest ?_ hsrt ?_ ?_
          · intro x hx
            rcases List.mem_cons.mp hx with rfl | hx
            · simp [validDatesB, hsl, hea]
            · exact hva x (by simp [hx])
          · intro l₀ hl₀ r hr
            simp only [List.head?_cons, Option.some.injEq] at hl₀
            subst hl₀
            exact fun u v hu hv => hhd last (by simp) r (by simp [hr]) u v hu hv
          · rcases hcov with ⟨x, hx, hc⟩ | ⟨x, hx, hc⟩
            · rcases List.mem_cons.mp hx with hxl | hx
              · rw [hxl] at hc
                obtain ⟨h1, h2⟩ := (coversB_iff hsl hel).mp hc
                refine Or.inl ⟨_, by simp, (coversB_iff
                  (show ({ last with endDate := e.endDate } :
                      CanonicalEvent).startDate = some sl from hsl)
                  (show ({ last with endDate := e.endDate } :
                      CanonicalEvent).endDate = some a from hea)).mpr ⟨h1, by omega⟩⟩
              · exact Or.inl ⟨x, by simp [hx], hc⟩
            · rcases List.mem_cons.mp hx with hxe | hx
              · rw [hxe] at hc
                obtain ⟨h1, h2⟩ := (coversB_iff hse hee).mp hc
                have hae : a = ee := by
                  rw [hee] at hea
                  exact (Option.some.injEq _ _).mp hea.symm
                refine Or.inl ⟨_, by simp, (coversB_iff
                  (show ({ last with endDate := e.endDate } :
                      CanonicalEvent).startDate = some sl from hsl)
                  (show ({ last with endDate := e.endDate } :
                      CanonicalEvent).endDate = some a from hea)).mpr
                  ⟨by omega, by omega⟩⟩
              · exact Or.inr ⟨x, hx, hc⟩
        · rw [show mergeStep (last :: rs) e = last :: rs by
              simp [mergeStep, hgap, hext]]
          have hle : ee ≤ el := endLt_false_elim hee hel (by simpa using hext)
          refine ih _ hvrest hva hsrt ?_ ?_
          · intro l₀ hl₀ r hr
            simp only [List.head?_cons, Option.some.injEq] at hl₀
            subst hl₀
            exact hhd last (by simp) r (by simp [hr])
          · rcases hcov with ⟨x, hx, hc⟩ | ⟨x, hx, hc⟩
            · exact Or.inl ⟨x, hx, hc⟩
            · rcases List.mem_cons.mp hx with hxe | hx
              · rw [hxe] at hc
                obtain ⟨h1, h2⟩ := (coversB_iff hse hee).mp hc
                exact Or.inl ⟨last, by simp, (coversB_iff hsl hel).mpr ⟨by omega, by omega⟩⟩
              · exact Or.inr ⟨x, hx, hc⟩
      · rw [show mergeStep (last :: rs) e = e :: last :: rs by
            simp [mergeStep, hgap]]
        refine ih _ hvrest ?_ hsrt ?_ ?_
        · intro x hx
          rcases List.mem_cons.mp hx with rfl | hx
          · exact hve
          · exact hva x hx
        · intro l₀ hl₀ r hr
          simp only [List.head?_cons, Option.some.injEq] at hl₀
          subst hl₀
          exact hert r hr
        · rcases hcov with ⟨x, hx, hc⟩ | ⟨x, hx, hc⟩
          · exact Or.inl ⟨x, by simp [hx], hc⟩
          · rcases List.mem_cons.mp hx with hxe | hx
            · exact Or.inl ⟨x, by simp [hxe], hc⟩
            · exact Or.inr ⟨x, hx, hc⟩

/-- The `groupKeys` fold keeps its accumulator and records every key. -/
lemma groupKeys_fold_spec :
    ∀ (l : List CanonicalEvent) (acc : List String),
      (∀ k ∈ acc,
        k ∈ l.foldl (fun ks e => if keyOf e ∈ ks then ks else ks ++ [keyOf e]) acc)
      ∧ (∀ e ∈ l,
        keyOf e ∈ l.foldl (fun ks e => if keyOf e ∈ ks then ks else ks ++ [keyOf e]) acc) := by
  intro l
  induction l with
  | nil => exact fun acc => ⟨fun k hk => by simpa using hk, by simp⟩
  | cons e t ih =>
    intro acc
    rw [List.foldl_cons]
    constructor
    · intro k hk
      refine (ih _).1 k ?_
      by_cases h : keyOf e ∈ acc <;> simp [h, hk]
    · intro x hx
      rcases List.mem_cons.mp hx with rfl | hx
      · refine (ih _).1 (keyOf x) ?_
        by_cases h : keyOf x ∈ acc <;> simp [h]
      · exact (ih _).2 x hx

lemma mem_groupKeys_of_mem {l : List CanonicalEvent} {e : CanonicalEvent}
    (he : e ∈ l) : keyOf e ∈ groupKeys l :=
  (groupKeys_fold_spec l []).2 e he

lemma groupKeys_nodup : ∀ (l : List CanonicalEvent) (acc : List String),
    acc.Nodup →
    (l.foldl (fun ks e => if keyOf e ∈ ks then ks else ks ++ [keyOf e]) acc).Nodup := by
  intro l
  induction l with
  | nil => exact fun acc h => h
  | cons e t ih =>
    intro acc hacc
    rw [List.foldl_cons]
    refine ih _ ?_
    by_cases h : keyOf e ∈ acc
    · simpa [h] using hacc
    · simp [h, List.nodup_append, hacc]


lemma mem_group_key {events : List CanonicalEvent} {k : String} {e : CanonicalEvent}
    (he : e ∈ events.filter fun x => keyOf x = k) : keyOf e = k :=
  of_decide_eq_true (List.mem_filter.mp he).2

lemma mergeGroup_pairwise_apart {g : List CanonicalEvent}
    (hv : ∀ e ∈ g, validDatesB e = true) :
    (mergeGroup (sortByStart g)).Pairwise (fun a b => mergedApartB a b = true) := by
  have hvs : ∀ e ∈ sortByStart g, validDatesB e = true := fun e he =>
    hv e ((mem_sortLe leStart e g).mp he)
  have hsort : (sortByStart g).Pairwise sLeP := by
    refine pairwise_sortByStart ?_
    intro a ha
    obtain ⟨sa, ea, hsa, _⟩ := validDatesB_elim (hv a ha)
    simp [hsa]
  have hres := sweep_apart (sortByStart g) [] hvs (by simp) hsort (by simp) (by simp)
  unfold mergeGroup
  rw [List.pairwise_reverse]
  exact hres.1

lemma mergeGroup_key {g : List CanonicalEvent} {k : String}
    (hk : ∀ e ∈ g, keyOf e = k) :
    ∀ e ∈ mergeGroup (sortByStart g), keyOf e = k := by
  intro e he
  unfold mergeGroup at he
  rw [List.mem_reverse] at he
  exact fold_mergeStep_key k (sortByStart g) [] (by simp)
    (fun x hx => hk x ((mem_sortLe leStart x g).mp hx)) e he

/-- `deduplicateEvents` preserves strict span positivity. -/
lemma dedup_spanPos {events : List CanonicalEvent}
    (hv : ∀ e ∈ events, spanPosB e = true) :
    ∀ e ∈ deduplicateEvents events, spanPosB e = true := by
  intro e he
  unfold deduplicateEvents at he
  rw [List.mem_flatMap] at he
  obtain ⟨k, _, he⟩ := he
  unfold mergeGroup at he
  rw [List.mem_reverse] at he
  refine fold_mergeStep_spanPos _ [] (by simp) ?_ e he
  intro x hx
  exact hv x (List.mem_filter.mp ((mem_sortLe leStart x _).mp hx)).1

/-- Claim C5: in the output of `deduplicateEvents`, for every input list of
events with valid dates, any two output events whose titles match
case-insensitively start in ascending order and have spans separated by more
than one day (disjoint, and no two mergeable spans remain unmerged). -/
theorem C5_merged_separation (events : List CanonicalEvent)
    (hv : ∀ e ∈ events, validDatesB e = true) :
    (deduplicateEvents events).Pairwise
      (fun a b => keyOf a = keyOf b → mergedApartB a b = true) := by
  unfold deduplicateEvents
  have hflat : (groupKeys events).flatMap (fun k =>
      mergeGroup (sortByStart (events.filter fun e => keyOf e = k))) =
      ((groupKeys events).map (fun k =>
        mergeGroup (sortByStart (events.filter fun e => keyOf e = k)))).flatten := rfl
  rw [hflat, List.pairwise_flatten]
  constructor
  · intro seg hseg
    rw [List.mem_map] at hseg
    obtain ⟨k, _, rfl⟩ := hseg
    have hgv : ∀ e ∈ events.filter (fun x => keyOf x = k), validDatesB e = true :=
      fun e he => hv e (List.mem_filter.mp he).1
    refine List.Pairwise.imp ?_ (mergeGroup_pairwise_apart hgv)
    intro a b h _
    exact h
  · rw [List.pairwise_map]
    have hnd : (groupKeys events).Nodup := groupKeys_nodup events [] (by simp)
    refine hnd.imp_of_mem ?_
    intro k₁ k₂ _ _ hne x hxseg y hyseg hkeq
    have hx : keyOf x = k₁ :=
      mergeGroup_key (fun a ha => mem_group_key ha) x hxseg
    have hy : keyOf y = k₂ :=
      mergeGroup_key (fun a ha => mem_group_key ha) y hyseg
    exact absurd (hx ▸ hy ▸ hkeq) hne

/-- A concrete two-event input for the separation theorem. -/
def c5Events : List CanonicalEvent :=
  [⟨"Ana", some 0, some 1, true, "d"⟩, ⟨"ana", some 5, some 6, true, "d"⟩]

/-- Claim C5 witness: the separation theorem applied to a concrete list. -/
theorem C5_merged_separation_witness :
    (∀ e ∈ c5Events, validDatesB e = true) ∧
    (deduplicateEvents c5Events).Pairwise
      (fun a b => keyOf a = keyOf b → mergedApartB a b = true) :=
  ⟨by decide, C5_merged_separation c5Events (by decide)⟩


/-- Claim C6 counterexample: merging two same-title spans separated by
exactly a one-day gap adds the gap day to the coverage, so the union of
output ranges strictly exceeds the union of input ranges: day 1 is covered
by the merged output but by no input event. -/
theorem C6_counterexample :
    deduplicateEvents
        [⟨"a", some 0, some 1, true, "d"⟩, ⟨"a", some 2, some 3, true, "d"⟩] =
      [⟨"a", some 0, some 3, true, "d"⟩] ∧
    (∀ e ∈ ([⟨"a", some 0, some 1, true, "d"⟩,
        ⟨"a", some 2, some 3, true, "d"⟩] : List CanonicalEvent),
      coversB e 1 = false) ∧
    coversB (⟨"a", some 0, some 3, true, "d"⟩ : CanonicalEvent) 1 = true := by
  decide

/-- Claim C6 (amended): `deduplicateEvents` never shrinks coverage — for
every input list of valid-dated events, every title group and every day, a
day covered by some input event of the group is covered by some output event
of the group; the two unions need not be equal, because merging two spans
separated by exactly a one-day gap adds the gap day. -/
theorem C6_amended_coverage_superset (events : List CanonicalEvent)
    (hv : ∀ e ∈ events, validDatesB e = true) (k : String) (d : Int)
    (hcov : ∃ e ∈ events, keyOf e = k ∧ coversB e d = true) :
    ∃ e ∈ deduplicateEvents events, keyOf e = k ∧ coversB e d = true := by
  obtain ⟨e₀, he₀, hk₀, hc₀⟩ := hcov
  have hkeys : k ∈ groupKeys events := hk₀ ▸ mem_groupKeys_of_mem he₀
  have he₀f : e₀ ∈ events.filter (fun x => keyOf x = k) :=
    List.mem_filter.mpr ⟨he₀, by simp [hk₀]⟩
  have he₀s : e₀ ∈ sortByStart (events.filter fun x => keyOf x = k) :=
    (mem_sortLe leStart e₀ _).mpr he₀f
  have hgv : ∀ x ∈ sortByStart (events.filter fun x => keyOf x = k),
      validDatesB x = true := fun x hx =>
    hv x (List.mem_filter.mp ((mem_sortLe leStart x _).mp hx)).1
  have hsort : (sortByStart (events.filter fun x => keyOf x = k)).Pairwise sLeP := by
    refine pairwise_sortByStart ?_
    intro a ha
    obtain ⟨sa, ea, hsa, _⟩ := validDatesB_elim
      (hv a (List.mem_filter.mp ha).1)
    simp [hsa]
  obtain ⟨e', he', hc'⟩ := fold_mergeStep_covers d
    (sortByStart (events.filter fun x => keyOf x = k)) [] hgv (by simp) hsort
    (by simp) (Or.inr ⟨e₀, he₀s, hc₀⟩)
  have he'm : e' ∈ mergeGroup (sortByStart (events.filter fun x => keyOf x = k)) := by
    unfold mergeGroup
    rw [List.mem_reverse]
    exact he'
  refine ⟨e', ?_, ?_, hc'⟩
  · unfold deduplicateEvents
    rw [List.mem_flatMap]
    exact ⟨k, hkeys, he'm⟩
  · exact mergeGroup_key (fun a ha => mem_group_key ha) e' he'm

/-- Claim C6 witness: the coverage-superset theorem applied to a concrete
list, group and day. -/
theorem C6_amended_coverage_superset_witness :
    (∀ e ∈ ([⟨"Ana", some 0, some 2, true, "d"⟩,
        ⟨"ana", some 1, some 4, true, "d"⟩] : List CanonicalEvent),
      validDatesB e = true) ∧
    (∃ e ∈ ([⟨"Ana", some 0, some 2, true, "d"⟩,
        ⟨"ana", some 1, some 4, true, "d"⟩] : List CanonicalEvent),
      keyOf e = "ana" ∧ coversB e 3 = true) ∧
    ∃ e ∈ deduplicateEvents
        [⟨"Ana", some 0, some 2, true, "d"⟩, ⟨"ana", some 1, some 4, true, "d"⟩],
      keyOf e = "ana" ∧ coversB e 3 = true :=
  ⟨by decide, by decide,
    C6_amended_coverage_superset
      [⟨"Ana", some 0, some 2, true, "d"⟩, ⟨"ana", some 1, some 4, true, "d"⟩]
      (by decide) "ana" 3 (by decide)⟩


/-- Every API-intercept candidate with a parseable start normalizes to a
strictly positive span (the inclusive-to-exclusive day is always added). -/
lemma processApi_spanPos (c : RawCandidate) (s : Int)
    (hs : parseISODate (c.start.getD "") = some s) :
    spanPosB (processApiCandidate c) = true := by
  unfold processApiCandidate
  simp only [hs]
  cases he : strTruthy c.«end» with
  | none => simp [spanPosB, optLT, addDays]
  | some es =>
    cases hv : parseISODate es with
    | none => simp [hv, spanPosB, optLT, addDays]
    | some v =>
      by_cases hlt : v < s
      · simp [hv, spanPosB, optLT, addDays, hlt]
      · simp [hv, spanPosB, optLT, addDays, hlt]
        omega

/-- Every widget event whose end field is absent or valid-and-after-start
processes to a strictly positive span when its start is valid. -/
lemma processFc_spanPos (ev : FcApiEvent) (hok : widgetEndOkB ev = true)
    (hs : (processFcEvent ev).startDate.isSome = true) :
    spanPosB (processFcEvent ev) = true := by
  unfold widgetEndOkB at hok
  cases hst : ev.start with
  | none =>
    exfalso
    unfold processFcEvent at hs
    rw [hst] at hs
    simp at hs
  | some p =>
    cases p with
    | none =>
      exfalso
      unfold processFcEvent at hs
      rw [hst] at hs
      simp at hs
    | some s =>
      cases hen : ev.«end» with
      | none =>
        unfold processFcEvent
        rw [hst, hen]
        simp [spanPosB, addDays]
      | some q =>
        rw [hen, hst] at hok
        cases q with
        | none => simp at hok
        | some v =>
          simp only [decide_eq_true_eq] at hok
          unfold processFcEvent
          rw [hst, hen]
          simp [spanPosB, hok]

/-- Every DOM candidate with a parseable start processes to a strictly
positive span (an invalid or non-later end is replaced by start + 1). -/
lemma processDom_spanPos (c : RawCandidate) (s : Int)
    (hs : parseDate (c.start.getD "") = some s) :
    spanPosB (processDomCandidate c) = true := by
  unfold processDomCandidate
  simp only [hs]
  cases he : strTruthy c.«end» with
  | none =>
    simp only [addDays, Option.map_some]
    simp [spanPosB, optLE]
  | some es =>
    cases hv : parseDate es with
    | none => simp [hv, spanPosB, optLE, addDays]
    | some v =>
      by_cases hle : v ≤ s
      · simp [hv, spanPosB, optLE, addDays, hle]
      · simp [hv, spanPosB, optLE, addDays, hle]
        omega

/-- The events of the widget and DOM branches of `extractEvents` all have
strictly positive spans, provided every widget-supplied end date is absent
or strictly after its start. -/
lemma extractEvents_spanPos (sn : Snapshot)
    (hw : ∀ ev ∈ sn.fcApi.getD [], widgetEndOkB ev = true) :
    ∀ e ∈ extractEvents sn, spanPosB e = true := by
  have hdom : ∀ e ∈ deduplicateEvents
      ((((domRawCandidates sn).filter fun c =>
          isTruthyStr c.start && !(c.title == "")).map processDomCandidate).filter
        fun e => e.startDate.isSome), spanPosB e = true := by
    refine dedup_spanPos ?_
    intro e he
    rw [List.mem_filter] at he
    obtain ⟨he, hsome⟩ := he
    rw [List.mem_map] at he
    obtain ⟨c, _, rfl⟩ := he
    obtain ⟨s, hs⟩ := Option.isSome_iff_exists.mp hsome
    exact processDom_spanPos c s hs
  intro e he
  unfold extractEvents at he
  cases hapi : sn.fcApi with
  | none =>
    rw [hapi] at he
    exact hdom e he
  | some l =>
    rw [hapi] at he
    simp only at he
    by_cases hl : 0 < l.length
    · rw [if_pos hl] at he
      by_cases hp : 0 < (fcProcessAll l).length
      · rw [if_pos hp] at he
        refine dedup_spanPos ?_ e he
        intro x hx
        unfold fcProcessAll at hx
        rw [List.mem_filter] at hx
        obtain ⟨hx, hsome⟩ := hx
        rw [List.mem_map] at hx
        obtain ⟨ev, hev, rfl⟩ := hx
        have hok : widgetEndOkB ev = true := by
          have := hw ev
          rw [hapi] at this
          exact this (Option.getD_some ▸ (List.mem_filter.mp hev).1)
        exact processFc_spanPos ev hok hsome
      · rw [if_neg hp] at he
        exact hdom e he
    · rw [if_neg hl] at he
      exact hdom e he


/-- A snapshot whose widget reports one event with end equal to start. -/
def widgetBadSnapshot : Snapshot :=
  ⟨some [⟨some "Juan", some (some 100), some (some 100), none⟩], [], [], [], []⟩

/-- Claim C1 counterexample: the widget-introspection path carries a
widget-provided end equal to the start straight through extraction and
deduplication, so the pipeline outputs an event whose `endDate` does not
exceed its `startDate`. -/
theorem C1_counterexample :
    extractEvents widgetBadSnapshot =
      [⟨"Juan", some 100, some 100, true, "Imported from BUK (FullCalendar API)"⟩] ∧
    ¬ (100 : Int) < 100 := by
  decide

/-- Claim C1 (amended): every CanonicalEvent in the pipeline's output has
`endDate` strictly exceeding `startDate` (single-day events get
`endDate = startDate + 1 day`), provided every widget-introspection event's
end field is absent or parses to a date strictly after its start; the
intercepted-API and DOM-heuristic paths guarantee this unconditionally, but
the widget path uses a present end date without validation, so a widget end
at or before the start (or unparseable) violates the invariant. -/
theorem C1_amended_span_positive (sn : Snapshot)
    (intercepted : List InterceptedPayload)
    (hw : ∀ ev ∈ sn.fcApi.getD [], widgetEndOkB ev = true) :
    ∀ e ∈ extractEventsWithInterceptedData sn intercepted, spanPosB e = true := by
  intro e he
  unfold extractEventsWithInterceptedData at he
  by_cases hi : 0 < intercepted.length
  · rw [if_pos hi] at he
    by_cases ha : 0 < (intercepted.flatMap apiCandidatesOf).length
    · rw [if_pos ha] at he
      by_cases hp : 0 < (((intercepted.flatMap apiCandidatesOf).map
          processApiCandidate).filter fun e => e.startDate.isSome).length
      · rw [if_pos hp] at he
        refine dedup_spanPos ?_ e he
        intro x hx
        rw [List.mem_filter] at hx
        obtain ⟨hx, hsome⟩ := hx
        rw [List.mem_map] at hx
        obtain ⟨c, _, rfl⟩ := hx
        obtain ⟨s, hs⟩ := Option.isSome_iff_exists.mp hsome
        exact processApi_spanPos c s hs
      · rw [if_neg hp] at he
        exact extractEvents_spanPos sn hw e he
    · rw [if_neg ha] at he
      exact extractEvents_spanPos sn hw e he
  · rw [if_neg hi] at he
    exact extractEvents_spanPos sn hw e he

/-- A snapshot whose widget reports one well-formed event. -/
def widgetGoodSnapshot : Snapshot :=
  ⟨some [⟨some "Ana", some (some 10), some (some 12), some true⟩], [], [], [], []⟩

/-- Claim C1 witness: the amended span-positivity theorem applied to a
concrete snapshot. -/
theorem C1_amended_span_positive_witness :
    (∀ ev ∈ widgetGoodSnapshot.fcApi.getD [], widgetEndOkB ev = true) ∧
    ∀ e ∈ extractEventsWithInterceptedData widgetGoodSnapshot [],
      spanPosB e = true :=
  ⟨by decide, C1_amended_span_positive widgetGoodSnapshot [] (by decide)⟩


lemma strTruthy_ne_empty {o : Option String} {t : String}
    (h : strTruthy o = some t) : t ≠ "" := by
  cases o with
  | none => simp [strTruthy] at h
  | some v =>
    have h' : (if v = "" then (none : Option String) else some v) = some t := h
    by_cases hv : v = ""
    · rw [if_pos hv] at h'
      cases h'
    · rw [if_neg hv] at h'
      cases h'
      exact hv

/-- The name slot of the table scan, when filled, is a truthy non-date cell
text of length in (3, 100). -/
lemma tableFold_name_good :
    ∀ (cells : List (Option String)) (st : Option String × Option String × Option String),
      (∀ n, st.1 = some n → n ≠ "" ∧ 3 < n.length ∧ n.length < 100) →
      ∀ n, (cells.foldl tableStep st).1 = some n →
        n ≠ "" ∧ 3 < n.length ∧ n.length < 100 := by
  intro cells
  induction cells with
  | nil => exact fun st h => h
  | cons cell rest ih =>
    intro st h
    rw [List.foldl_cons]
    refine ih _ ?_
    obtain ⟨name, startD, endD⟩ := st
    unfold tableStep
    cases hct : strTruthy cell with
    | none => exact h
    | some text =>
      by_cases hd : hasDateToken text = true
      · simp only [hd, if_pos]
        by_cases h1 : startD = none
        · simp only [h1, if_pos]
          exact h
        · simp only [h1, if_neg, not_false_eq_true]
          by_cases h2 : endD = none
          · simp only [h2, if_pos]
            exact h
          · simp only [h2, if_neg, not_false_eq_true]
            exact h
      · simp only [hd, Bool.false_eq_true, if_neg, not_false_eq_true]
        by_cases hg : 3 < text.length ∧ text.length < 100 ∧ name = none
        · simp only [hg, if_pos]
          intro n hn
          have hn' : some text = some n := hn
          cases hn'
          exact ⟨strTruthy_ne_empty hct, hg.1, hg.2.1⟩
        · simp only [hg, if_neg, not_false_eq_true]
          exact h

/-- Claim C8 counterexample: a table row whose non-date cell is the digit
string "12345" yields a candidate with a purely numeric title, so the
filter rule claimed for all DOM strategies does not hold for table rows. -/
theorem C8_counterexample :
    tableRowCandidates ⟨[some "12345", some "01/02/2024"]⟩ =
      [⟨"12345", some "01/02/2024", none, "table"⟩] ∧
    pureNumeric "12345" = true := by
  decide

/-- Claim C8 (amended): candidates from the calendar-cell event markup and
day-cell indicator collectors have titles that are non-empty, not purely
numeric and under 200 characters (day-cell titles are additionally longer
than 2); table-row candidates have non-empty titles of length strictly
between 3 and 100 but may be purely numeric (any non-date cell of plausible
length becomes the title); multi-day calendar-cell candidates are non-empty
and not purely numeric but carry no length bound. -/
theorem C8_amended_dom_title_filters :
    (∀ (el : FcEventEl), ∀ c ∈ fcEventCandidate el,
      c.title ≠ "" ∧ pureNumeric c.title = false ∧ c.title.length < 200)
    ∧ (∀ (cell : DayCellEl), ∀ c ∈ dayCellCandidates cell,
      c.title ≠ "" ∧ pureNumeric c.title = false ∧
        2 < c.title.length ∧ c.title.length < 200)
    ∧ (∀ (row : TableRowEl), ∀ c ∈ tableRowCandidates row,
      c.title ≠ "" ∧ 3 < c.title.length ∧ c.title.length < 100)
    ∧ (∀ (el : MultiDayEl), ∀ c ∈ multiDayCandidate el,
      c.title ≠ "" ∧ pureNumeric c.title = false) := by
  refine ⟨?_, ?_, ?_, ?_⟩
  · intro el c hc
    unfold fcEventCandidate at hc
    cases ht : strTruthy (jsOrStr el.titleText el.ownText) with
    | none =>
      rw [ht] at hc
      simp at hc
    | some t =>
      rw [ht] at hc
      by_cases hn : pureNumeric t = true
      · simp [hn] at hc
      · by_cases hl : t.length < 200
        · simp [hn, hl] at hc
          subst hc
          exact ⟨strTruthy_ne_empty ht, by simpa using hn, hl⟩
        · simp [hn, hl] at hc
  · intro cell c hc
    unfold dayCellCandidates at hc
    cases hd : strTruthy cell.dataDate with
    | none =>
      rw [hd] at hc
      simp at hc
    | some date =>
      rw [hd] at hc
      rcases List.mem_flatMap.mp hc with ⟨txt, _, hcf⟩
      cases htt : strTruthy txt with
      | none =>
        rw [htt] at hcf
        simp at hcf
      | some t =>
        rw [htt] at hcf
        by_cases hg : (!pureNumeric t && decide (2 < t.length) &&
            decide (t.length < 200)) = true
        · simp only [hg, if_true, List.mem_singleton] at hcf
          subst hcf
          simp only [Bool.and_eq_true, Bool.not_eq_true', decide_eq_true_eq] at hg
          exact ⟨strTruthy_ne_empty htt, hg.1.1, hg.1.2, hg.2⟩
        · simp [hg] at hcf
  · intro row c hc
    unfold tableRowCandidates at hc
    by_cases hlen : 2 ≤ row.cellTexts.length
    · rw [if_pos hlen] at hc
      have hng := tableFold_name_good row.cellTexts (none, none, none)
        (by intro n hn; simp at hn)
      rcases hres : row.cellTexts.foldl tableStep (none, none, none) with ⟨name, startD, endD⟩
      rw [hres] at hc hng
      cases name with
      | none => simp at hc
      | some n =>
        cases startD with
        | none => simp at hc
        | some sv =>
          simp at hc
          subst hc
          exact hng n rfl
    · rw [if_neg hlen] at hc
      simp at hc
  · intro el c hc
    unfold multiDayCandidate at hc
    cases ht : strTruthy (jsOrStr el.titleText el.ownText) with
    | none =>
      rw [ht] at hc
      simp at hc
    | some t =>
      rw [ht] at hc
      by_cases hn : pureNumeric t = true
      · simp [hn] at hc
      · cases hs : strTruthy el.dayCellDate with
        | none =>
          simp [hn, hs] at hc
        | some sv =>
          simp [hn, hs] at hc
          subst hc
          exact ⟨strTruthy_ne_empty ht, by simpa using hn⟩

/-- Concrete elements witnessing each collector's filter. -/
def c8FcEl : FcEventEl := ⟨some "Meeting", none, some "2024-01-02", none, none, none, none⟩

def c8FcCand : RawCandidate := ⟨"Meeting", some "2024-01-02", none, "fc-event"⟩

def c8DayCell : DayCellEl := ⟨some "2024-01-02", [some "Vacaciones"]⟩

def c8DayCand : RawCandidate := ⟨"Vacaciones", some "2024-01-02", none, "daycell-indicator"⟩

def c8Row : TableRowEl := ⟨[some "Maria Lopez", some "01/02/2024"]⟩

def c8RowCand : RawCandidate := ⟨"Maria Lopez", some "01/02/2024", none, "table"⟩

def c8Multi : MultiDayEl := ⟨some "Trip", none, some "2024-01-02"⟩

def c8MultiCand : RawCandidate := ⟨"Trip", some "2024-01-02", none, "fc-multiday"⟩

/-- Claim C8 witness: the four filter properties applied to concrete
elements and their candidates. -/
theorem C8_amended_dom_title_filters_witness :
    (c8FcCand.title ≠ "" ∧ pureNumeric c8FcCand.title = false ∧
      c8FcCand.title.length < 200)
    ∧ (c8DayCand.title ≠ "" ∧ pureNumeric c8DayCand.title = false ∧
      2 < c8DayCand.title.length ∧ c8DayCand.title.length < 200)
    ∧ (c8RowCand.title ≠ "" ∧ 3 < c8RowCand.title.length ∧ c8RowCand.title.length < 100)
    ∧ (c8MultiCand.title ≠ "" ∧ pureNumeric c8MultiCand.title = false) :=
  ⟨C8_amended_dom_title_filters.1 c8FcEl c8FcCand (by decide),
    C8_amended_dom_title_filters.2.1 c8DayCell c8DayCand (by decide),
    C8_amended_dom_title_filters.2.2.1 c8Row c8RowCand (by decide),
    C8_amended_dom_title_filters.2.2.2 c8Multi c8MultiCand (by decide)⟩


lemma take_set_of_le {α : Type} :
    ∀ (l : List α) (i : Nat) (a : α) (n : Nat), n ≤ i → (l.set i a).take n = l.take n := by
  intro l
  induction l with
  | nil => simp
  | cons b t ih =>
    intro i a n hn
    cases i with
    | zero =>
      have : n = 0 := Nat.le_zero.mp hn
      subst this
      simp
    | succ j =>
      cases n with
      | zero => simp
      | succ m =>
        simp only [List.set, List.take_succ_cons]
        rw [ih j a m (Nat.succ_le_succ_iff.mp hn)]

/-- The heap prefix of length `n` is unchanged and the heap is at least that
long. -/
def PrefixKept (n : Nat) (h₀ h : JsHeap) : Prop :=
  h.objs.take n = h₀.objs.take n ∧ n ≤ h.objs.length

lemma prefixKept_alloc {n : Nat} {h₀ h : JsHeap} (e : CanonicalEvent)
    (hp : PrefixKept n h₀ h) : PrefixKept n h₀ (heapAlloc h e).1 := by
  refine ⟨?_, ?_⟩
  · show (h.objs ++ [e]).take n = h₀.objs.take n
    rw [List.take_append_of_le_length hp.2]
    exact hp.1
  · show n ≤ (h.objs ++ [e]).length
    have := hp.2
    simp only [List.length_append]
    omega

lemma prefixKept_setEnd {n : Nat} {h₀ h : JsHeap} {i : Nat} (d : Option Int)
    (hi : n ≤ i) (hp : PrefixKept n h₀ h) : PrefixKept n h₀ (heapSetEnd h i d) := by
  refine ⟨?_, ?_⟩
  · show ((h.objs.set i _).take n) = h₀.objs.take n
    rw [take_set_of_le h.objs i _ n hi]
    exact hp.1
  · show n ≤ (h.objs.set i _).length
    simp only [List.length_set]
    exact hp.2

lemma groupInsert_ids {groups : List (String × List Nat)} {k : String}
    {idNew : Nat} {n : Nat}
    (hg : ∀ g ∈ groups, ∀ i ∈ g.2, n ≤ i) (hnew : n ≤ idNew) :
    ∀ g ∈ groupInsert groups k idNew, ∀ i ∈ g.2, n ≤ i := by
  intro g hgm i hi
  unfold groupInsert at hgm
  by_cases h : groups.any (fun p => p.1 = k) = true
  · rw [if_pos h] at hgm
    rw [List.mem_map] at hgm
    obtain ⟨p, hp, rfl⟩ := hgm
    by_cases hpk : p.1 = k
    · simp only [hpk, if_pos] at hi
      rcases List.mem_append.mp hi with hi | hi
      · exact hg p hp i hi
      · simp only [List.mem_singleton] at hi
        subst hi
        exact hnew
    · simp only [hpk, if_neg, not_false_eq_true] at hi
      exact hg p hp i hi
  · rw [if_neg h] at hgm
    rcases List.mem_append.mp hgm with hgm | hgm
    · exact hg g hgm i hi
    · simp only [List.mem_singleton] at hgm
      subst hgm
      simp only [List.mem_singleton] at hi
      subst hi
      exact hnew

/-- The grouping loop only appends fresh copies: the original prefix is kept
and every reference recorded in a group is a fresh index. -/
lemma dedupGroupPhase_fold_spec (n : Nat) (h₀ : JsHeap) :
    ∀ (input : List Nat) (h : JsHeap) (groups : List (String × List Nat)),
      PrefixKept n h₀ h →
      (∀ g ∈ groups, ∀ i ∈ g.2, n ≤ i) →
      PrefixKept n h₀ (input.foldl
        (fun st i =>
          let e := heapGet st.1 i
          let an := heapAlloc st.1 e
          (an.1, groupInsert st.2 (jsToLower e.title) an.2)) (h, groups)).1 ∧
      ∀ g ∈ (input.foldl
        (fun st i =>
          let e := heapGet st.1 i
          let an := heapAlloc st.1 e
          (an.1, groupInsert st.2 (jsToLower e.title) an.2)) (h, groups)).2,
        ∀ i ∈ g.2, n ≤ i := by
  intro input
  induction input with
  | nil => exact fun h groups hp hg => ⟨hp, hg⟩
  | cons j rest ih =>
    intro h groups hp hg
    rw [List.foldl_cons]
    refine ih _ _ (prefixKept_alloc _ hp) ?_
    refine groupInsert_ids hg ?_
    show n ≤ h.objs.length
    exact hp.2

/-- The sweep only mutates the end dates of fresh copies, so the original
prefix survives it. -/
lemma sweepHeap_fold_spec (n : Nat) (h₀ : JsHeap) :
    ∀ (ids : List Nat) (h : JsHeap) (accIds : List Nat),
      PrefixKept n h₀ h →
      (∀ i ∈ ids, n ≤ i) → (∀ i ∈ accIds, n ≤ i) →
      PrefixKept n h₀ (ids.foldl
        (fun st i =>
          match st.2 with
          | [] => (st.1, [i])
          | lastId :: rest =>
            let last := heapGet st.1 lastId
            let e := heapGet st.1 i
            if gapLE1 last e then
              (if endLt last e then heapSetEnd st.1 lastId e.endDate else st.1,
                lastId :: rest)
            else (st.1, i :: lastId :: rest)) (h, accIds)).1 := by
  intro ids
  induction ids with
  | nil => exact fun h accIds hp _ _ => hp
  | cons j rest ih =>
    intro h accIds hp hids hacc
    rw [List.foldl_cons]
    have hjrest : ∀ i ∈ rest, n ≤ i := fun i hi => hids i (by simp [hi])
    have hj : n ≤ j := hids j (by simp)
    cases accIds with
    | nil =>
      refine ih _ _ hp hjrest ?_
      intro i hi
      simp only [List.mem_singleton] at hi
      subst hi
      exact hj
    | cons lastId accRest =>
      by_cases hgap : gapLE1 (heapGet h lastId) (heapGet h j) = true
      · by_cases hext : endLt (heapGet h lastId) (heapGet h j) = true
        · simp only [hgap, hext, if_pos]
          refine ih _ _ (prefixKept_setEnd _ (hacc lastId (by simp)) hp) hjrest hacc
        · simp only [hgap, hext, if_pos, if_neg, Bool.false_eq_true, not_false_eq_true]
          exact ih _ _ hp hjrest hacc
      · simp only [hgap, if_neg, Bool.false_eq_true, not_false_eq_true]
        refine ih _ _ hp hjrest ?_
        intro i hi
        rcases List.mem_cons.mp hi with rfl | hi
        · exact hj
        · exact hacc i hi

/-- The per-group phase preserves the original prefix, given every recorded
group reference is fresh. -/
lemma dedupHeapPhase2_fold_spec (n : Nat) (h₀ : JsHeap) :
    ∀ (groups : List (String × List Nat)) (h : JsHeap) (out : List Nat),
      PrefixKept n h₀ h →
      (∀ g ∈ groups, ∀ i ∈ g.2, n ≤ i) →
      PrefixKept n h₀ (groups.foldl
        (fun st g =>
          let sorted := sortLe (leStartIdx st.1) g.2
          let sw := sweepHeap st.1 sorted
          (sw.1, st.2 ++ sw.2.reverse)) (h, out)).1 := by
  intro groups
  induction groups with
  | nil => exact fun h out hp _ => hp
  | cons g rest ih =>
    intro h out hp hg
    rw [List.foldl_cons]
    refine ih _ _ ?_ (fun g' hg' => hg g' (by simp [hg']))
    show PrefixKept n h₀ (sweepHeap h (sortLe (leStartIdx h) g.2)).1
    refine sweepHeap_fold_spec n h₀ _ h [] hp ?_ (by simp)
    intro i hi
    exact hg g (by simp) i ((mem_sortLe (leStartIdx h) i g.2).mp hi)

/-- Claim C10: the heap-level `deduplicateEvents` never mutates its input:
it copies every event during grouping and the sweep extends only those
copies, so every heap cell that existed before the call — in particular
every event object of the input list, with its title, startDate, endDate,
allDay and description — is unchanged afterwards (and the input list of
references itself is a value the function does not modify). -/
theorem C10_no_input_mutation (h : JsHeap) (input : List Nat) :
    (deduplicateEventsHeap h input).1.objs.take h.objs.length = h.objs := by
  have h1 := dedupGroupPhase_fold_spec h.objs.length h input h []
    ⟨rfl, Nat.le_refl _⟩ (by simp)
  have h2 := dedupHeapPhase2_fold_spec h.objs.length h
    (dedupGroupPhase h input).2 (dedupGroupPhase h input).1 [] h1.1 h1.2
  have h3 : (deduplicateEventsHeap h input).1.objs.take h.objs.length =
      h.objs.take h.objs.length := h2.1
  rw [h3, List.take_length]


/-! ## Idempotence analysis of `cleanTitle` -/

/-- The head, if any, is not whitespace. -/
def headNotWs : List Char → Bool
  | [] => true
  | c :: _ => !jsWhitespace c

/-- The last character, if any, is not whitespace. -/
def lastNotWs : List Char → Bool
  | [] => true
  | [c] => !jsWhitespace c
  | _ :: c :: rest => lastNotWs (c :: rest)

/-- Every whitespace character is a plain space. -/
def wsOnlySpace (l : List Char) : Bool := l.all fun c => !jsWhitespace c || c = ' '

/-- No two adjacent whitespace characters. -/
def noAdjWs : List Char → Bool
  | c :: d :: rest => (!(jsWhitespace c && jsWhitespace d)) && noAdjWs (d :: rest)
  | _ => true

lemma dropWhile_headNotWs : ∀ l : List Char, headNotWs (l.dropWhile jsWhitespace) = true := by
  intro l
  induction l with
  | nil => rfl
  | cons c t ih =>
    by_cases hc : jsWhitespace c = true
    · simpa [List.dropWhile, hc] using ih
    · simp [List.dropWhile, hc, headNotWs]

lemma dropWhile_ws_eq_self {l : List Char} (h : headNotWs l = true) :
    l.dropWhile jsWhitespace = l := by
  cases l with
  | nil => rfl
  | cons c t =>
    simp only [headNotWs, Bool.not_eq_true'] at h
    simp [List.dropWhile, h]

lemma trimRight_shape (c : Char) (rest : List Char) :
    trimRightGo (c :: rest) = [] ∨ ∃ r, trimRightGo (c :: rest) = c :: r := by
  cases htr : trimRightGo rest with
  | nil =>
    by_cases hc : jsWhitespace c = true
    · exact Or.inl (by simp [trimRightGo, htr, hc])
    · exact Or.inr ⟨[], by simp [trimRightGo, htr, hc]⟩
  | cons x xs =>
    exact Or.inr ⟨x :: xs, by simp [trimRightGo, htr]⟩

lemma trimRight_headNotWs {l : List Char} (h : headNotWs l = true) :
    headNotWs (trimRightGo l) = true := by
  cases l with
  | nil => rfl
  | cons c rest =>
    rcases trimRight_shape c rest with he | ⟨r, he⟩
    · rw [he]; rfl
    · rw [he]
      simpa [headNotWs] using h

lemma trimRight_lastNotWs : ∀ l : List Char, lastNotWs (trimRightGo l) = true := by
  intro l
  induction l with
  | nil => rfl
  | cons c rest ih =>
    cases htr : trimRightGo rest with
    | nil =>
      by_cases hc : jsWhitespace c = true
      · simp [trimRightGo, htr, hc, lastNotWs]
      · simp [trimRightGo, htr, hc, lastNotWs]
    | cons x xs =>
      have he : trimRightGo (c :: rest) = c :: x :: xs := by
        simp [trimRightGo, htr]
      rw [he]
      show lastNotWs (x :: xs) = true
      rw [← htr]
      exact ih

lemma trimRight_eq_self : ∀ {l : List Char}, lastNotWs l = true → trimRightGo l = l := by
  intro l
  induction l with
  | nil => exact fun _ => rfl
  | cons c rest ih =>
    intro h
    cases rest with
    | nil =>
      have hc : jsWhitespace c = false := by
        simpa [lastNotWs, Bool.not_eq_true'] using h
      simp [trimRightGo, hc]
    | cons d t =>
      have hrest : trimRightGo (d :: t) = d :: t := ih (by simpa [lastNotWs] using h)
      have hdef : trimRightGo (c :: d :: t) =
          (match trimRightGo (d :: t) with
           | [] => if jsWhitespace c = true then [] else [c]
           | r => c :: r) := rfl
      rw [hdef, hrest]

lemma mem_trimRight : ∀ {l : List Char} {x : Char}, x ∈ trimRightGo l → x ∈ l := by
  intro l
  induction l with
  | nil =>
    intro x hx
    simp [trimRightGo] at hx
  | cons c rest ih =>
    intro x hx
    cases htr : trimRightGo rest with
    | nil =>
      by_cases hc : jsWhitespace c = true
      · rw [show trimRightGo (c :: rest) = [] by simp [trimRightGo, htr, hc]] at hx
        simp at hx
      · rw [show trimRightGo (c :: rest) = [c] by simp [trimRightGo, htr, hc]] at hx
        simp only [List.mem_singleton] at hx
        simp [hx]
    | cons y ys =>
      rw [show trimRightGo (c :: rest) = c :: y :: ys by simp [trimRightGo, htr]] at hx
      rcases List.mem_cons.mp hx with rfl | hx
      · simp
      · have : x ∈ trimRightGo rest := by rw [htr]; exact hx
        exact List.mem_cons_of_mem _ (ih this)

lemma wsOnly_of_subset {l m : List Char} (hs : ∀ x ∈ m, x ∈ l)
    (h : wsOnlySpace l = true) : wsOnlySpace m = true := by
  rw [wsOnlySpace, List.all_eq_true] at *
  exact fun x hx => h x (hs x hx)

lemma noAdj_tail {c : Char} {l : List Char} (h : noAdjWs (c :: l) = true) :
    noAdjWs l = true := by
  cases l with
  | nil => rfl
  | cons d t =>
    simp only [noAdjWs, Bool.and_eq_true] at h
    exact h.2

lemma noAdj_dropWhile {l : List Char} (h : noAdjWs l = true) :
    noAdjWs (l.dropWhile jsWhitespace) = true := by
  induction l with
  | nil => rfl
  | cons c t ih =>
    by_cases hc : jsWhitespace c = true
    · rw [List.dropWhile_cons_of_pos (by simpa using hc)]
      exact ih (noAdj_tail h)
    · rwa [List.dropWhile_cons_of_neg (by simpa using hc)]

lemma noAdj_trimRight : ∀ {l : List Char}, noAdjWs l = true → noAdjWs (trimRightGo l) = true := by
  intro l
  induction l with
  | nil => exact fun _ => rfl
  | cons c rest ih =>
    intro h
    cases htr : trimRightGo rest with
    | nil =>
      by_cases hc : jsWhitespace c = true
      · simp [trimRightGo, htr, hc, noAdjWs]
      · simp [trimRightGo, htr, hc, noAdjWs]
    | cons x xs =>
      rw [show trimRightGo (c :: rest) = c :: x :: xs by simp [trimRightGo, htr]]
      have hrest : noAdjWs (x :: xs) = true := by
        rw [← htr]
        exact ih (noAdj_tail h)
      cases rest with
      | nil => simp [trimRightGo] at htr
      | cons r₀ rr =>
        have hx : x = r₀ := by
          rcases trimRight_shape r₀ rr with he | ⟨r, he⟩
          · rw [he] at htr; cases htr
          · rw [he] at htr
            exact ((List.cons.injEq _ _ _ _).mp htr).1.symm
        rw [hx] at hrest ⊢
        have h' : ((!(jsWhitespace c && jsWhitespace r₀)) && noAdjWs (r₀ :: rr)) = true := h
        rw [Bool.and_eq_true] at h'
        show ((!(jsWhitespace c && jsWhitespace r₀)) && noAdjWs (r₀ :: xs)) = true
        rw [Bool.and_eq_true]
        exact ⟨h'.1, hrest⟩


lemma noAdjWs_cons_of_head {a : Char} {l : List Char}
    (h1 : headNotWs l = true) (h2 : noAdjWs l = true) : noAdjWs (a :: l) = true := by
  cases l with
  | nil => rfl
  | cons d t =>
    have hd : jsWhitespace d = false := by
      simpa [headNotWs, Bool.not_eq_true'] using h1
    show ((!(jsWhitespace a && jsWhitespace d)) && noAdjWs (d :: t)) = true
    rw [Bool.and_eq_true]
    exact ⟨by simp [hd], h2⟩

lemma noAdjWs_cons_of_left {a : Char} {l : List Char}
    (ha : jsWhitespace a = false) (h2 : noAdjWs l = true) : noAdjWs (a :: l) = true := by
  cases l with
  | nil => rfl
  | cons d t =>
    show ((!(jsWhitespace a && jsWhitespace d)) && noAdjWs (d :: t)) = true
    rw [Bool.and_eq_true]
    exact ⟨by simp [ha], h2⟩

/-- The collapse pass outputs only plain-space whitespace, never two adjacent
whitespace characters, and (when resuming inside a run) a non-whitespace
head. -/
lemma collapseWsGo_spec :
    ∀ (l : List Char) (b : Bool),
      wsOnlySpace (collapseWsGo b l) = true ∧ noAdjWs (collapseWsGo b l) = true ∧
        (b = true → headNotWs (collapseWsGo b l) = true) := by
  intro l
  induction l with
  | nil => intro b; exact ⟨rfl, rfl, fun _ => rfl⟩
  | cons c rest ih =>
    intro b
    by_cases hc : jsWhitespace c = true
    · cases b with
      | true =>
        have hgo : collapseWsGo true (c :: rest) = collapseWsGo true rest := by
          simp [collapseWsGo, hc]
        rw [hgo]
        exact ⟨(ih true).1, (ih true).2.1, fun _ => (ih true).2.2 rfl⟩
      | false =>
        have hgo : collapseWsGo false (c :: rest) = ' ' :: collapseWsGo true rest := by
          simp [collapseWsGo, hc]
        rw [hgo]
        refine ⟨?_, ?_, fun hb => by cases hb⟩
        · rw [wsOnlySpace, List.all_cons]
          rw [Bool.and_eq_true]
          exact ⟨by simp, (ih true).1⟩
        · exact noAdjWs_cons_of_head ((ih true).2.2 rfl) (ih true).2.1
    · have hgo : ∀ b', collapseWsGo b' (c :: rest) = c :: collapseWsGo false rest := by
        intro b'
        cases b' <;> simp [collapseWsGo, hc]
      rw [hgo b]
      have hcf : jsWhitespace c = false := by simpa using hc
      refine ⟨?_, ?_, fun _ => by simp [headNotWs, hcf]⟩
      · rw [wsOnlySpace, List.all_cons]
        rw [Bool.and_eq_true]
        exact ⟨by simp [hcf], (ih false).1⟩
      · exact noAdjWs_cons_of_left hcf (ih false).2.1

lemma collapseWsGo_true_of_head {l : List Char} (h : headNotWs l = true) :
    collapseWsGo true l = collapseWsGo false l := by
  cases l with
  | nil => rfl
  | cons c t =>
    have hc : jsWhitespace c = false := by
      simpa [headNotWs, Bool.not_eq_true'] using h
    simp [collapseWsGo, hc]

/-- The collapse pass is the identity on lists whose whitespace is plain
single spaces. -/
lemma collapseWs_fix : ∀ {l : List Char},
    wsOnlySpace l = true → noAdjWs l = true → collapseWs l = l := by
  intro l
  induction l with
  | nil => exact fun _ _ => rfl
  | cons c rest ih =>
    intro hws hadj
    have hwsr : wsOnlySpace rest = true := by
      rw [wsOnlySpace, List.all_cons, Bool.and_eq_true] at hws
      exact hws.2
    by_cases hc : jsWhitespace c = true
    · have hsp : c = ' ' := by
        rw [wsOnlySpace, List.all_cons, Bool.and_eq_true] at hws
        have := hws.1
        rw [Bool.or_eq_true] at this
        rcases this with hh | hh
        · rw [hc] at hh; cases hh
        · simpa using hh
      have hhead : headNotWs rest = true := by
        cases rest with
        | nil => rfl
        | cons d t =>
          have h' : ((!(jsWhitespace c && jsWhitespace d)) && noAdjWs (d :: t)) = true := hadj
          rw [Bool.and_eq_true] at h'
          have := h'.1
          rw [Bool.not_eq_eq_eq_not] at this
          simp only [hc, Bool.true_and] at this
          simpa [headNotWs] using this
      have hgo : collapseWs (c :: rest) = ' ' :: collapseWsGo true rest := by
        simp [collapseWs, collapseWsGo, hc]
      rw [hgo, collapseWsGo_true_of_head hhead]
      rw [show collapseWsGo false rest = collapseWs rest from rfl]
      rw [ih hwsr (noAdj_tail hadj), hsp]
    · have hcf : jsWhitespace c = false := by simpa using hc
      have hgo : collapseWs (c :: rest) = c :: collapseWs rest := by
        simp [collapseWs, collapseWsGo, hcf]
      rw [hgo, ih hwsr (noAdj_tail hadj)]

lemma jsTrim_headNotWs (l : List Char) : headNotWs (jsTrimList l) = true :=
  trimRight_headNotWs (dropWhile_headNotWs l)

lemma jsTrim_lastNotWs (l : List Char) : lastNotWs (jsTrimList l) = true :=
  trimRight_lastNotWs _

lemma jsTrim_fix {l : List Char} (h1 : headNotWs l = true) (h2 : lastNotWs l = true) :
    jsTrimList l = l := by
  unfold jsTrimList
  rw [dropWhile_ws_eq_self h1]
  exact trimRight_eq_self h2

lemma jsTrim_wsOnly {l : List Char} (h : wsOnlySpace l = true) :
    wsOnlySpace (jsTrimList l) = true := by
  refine wsOnly_of_subset ?_ h
  intro x hx
  have hmem := mem_trimRight hx
  exact (List.dropWhile_sublist jsWhitespace).subset hmem

lemma jsTrim_noAdj {l : List Char} (h : noAdjWs l = true) :
    noAdjWs (jsTrimList l) = true :=
  noAdj_trimRight (noAdj_dropWhile h)

/-- Claim C7 counterexample: cleaning can expose a fresh strippable digit
prefix, so cleaning twice differs from cleaning once: clean("1 2 a") is
"2 a", but clean("2 a") is "a". -/
theorem C7_counterexample :
    cleanTitle (cleanTitle "1 2 a") ≠ cleanTitle "1 2 a" ∧
    cleanTitle "1 2 a" = "2 a" ∧ cleanTitle "2 a" = "a" := by
  decide

/-- Claim C7 (amended): title cleaning is idempotent on every input whose
cleaned result does not again start with a one-or-two-digit run followed by
a non-digit (the strip step being the identity on the cleaned result);
otherwise a second cleaning strips further. -/
theorem C7_amended_clean_idempotent (s : String)
    (h : stripLeadingDigits (cleanTitle s).data = (cleanTitle s).data) :
    cleanTitle (cleanTitle s) = cleanTitle s := by
  have hdata : (cleanTitle s).data = cleanTitleList s.data := rfl
  rw [hdata] at h
  show (⟨cleanTitleList (cleanTitle s).data⟩ : String) = cleanTitle s
  rw [show cleanTitle s = ⟨cleanTitleList s.data⟩ from rfl]
  have hgoal : cleanTitleList (cleanTitleList s.data) = cleanTitleList s.data := by
    by_cases hy : cleanTitleList s.data = []
    · rw [hy]
      rfl
    · have hform : cleanTitleList s.data =
          jsTrimList (collapseWs (jsTrimList (stripLeadingDigits s.data))) := by
        unfold cleanTitleList
        by_cases hs : s.data = []
        · exact absurd (by rw [cleanTitleList, if_pos hs]) hy
        · rw [if_neg hs]
      have hwsy : wsOnlySpace (cleanTitleList s.data) = true := by
        rw [hform]
        exact jsTrim_wsOnly (collapseWsGo_spec _ false).1
      have hadjy : noAdjWs (cleanTitleList s.data) = true := by
        rw [hform]
        exact jsTrim_noAdj (collapseWsGo_spec _ false).2.1
      have hheady : headNotWs (cleanTitleList s.data) = true := by
        rw [hform]
        exact jsTrim_headNotWs _
      have hlasty : lastNotWs (cleanTitleList s.data) = true := by
        rw [hform]
        exact jsTrim_lastNotWs _
      rw [cleanTitleList, if_neg hy, h, jsTrim_fix hheady hlasty,
        collapseWs_fix hwsy hadjy, jsTrim_fix hheady hlasty]
  exact congrArg String.mk hgoal

/-- Claim C7 witness: idempotence applied to a concrete title whose cleaned
form has no digit prefix. -/
theorem C7_amended_clean_idempotent_witness :
    stripLeadingDigits (cleanTitle "5Juan Perez").data = (cleanTitle "5Juan Perez").data ∧
    cleanTitle (cleanTitle "5Juan Perez") = cleanTitle "5Juan Perez" :=
  ⟨by decide, C7_amended_clean_idempotent "5Juan Perez" (by decide)⟩

end Buk
